import Mathlib

/-! # piGMP: fractional digits of π from the BBP series

A shallow embedding of `src/piGMP.c`.  The program has one function, `main`;
the definitions below follow it line by line.

* C strings are the lists of their characters before the terminating NUL.
* `mpf_t` values are rational numbers and every `mpf_*` operation returns the
  exact result (GMP's truncation to the working precision is not modelled).
* `double` arithmetic is IEEE binary64 with round to nearest, ties to even:
  every operation returns the rounding `rnd` of the exact result (the exponent
  range is not modelled; no value of the plan leaves it), and `log` returns the
  rounding of the real logarithm.
* A conversion or addition that leaves `int32_t` is undefined in C: `main`
  then has no outcome (`none`).  This happens for the term count of line 125
  and for the sizes `digits + 1` and `digits + 2` of lines 187 and 188.
* `mpf_get_str` converts the exact operand: its digits, rounded on the first
  dropped digit, trailing zeros removed.  GMP converts an operand cut to a few
  limbs, so its last digit can differ where the dropped digits lie close to a
  rounding boundary; results on printed digits are stated at concrete requests.
-/

namespace PiGMP

/-! ## C library -/

/-- The predicate `isspace` of the C locale: the space and the controls 9 to 13. -/
def isspace (c : Char) : Bool := c.toNat = 32 || (9 ≤ c.toNat && c.toNat ≤ 13)

/-- Largest value of `long` (64 bits). -/
def LONG_MAX : Int := 2 ^ 63 - 1

/-- Smallest value of `long` (64 bits). -/
def LONG_MIN : Int := -(2 ^ 63)

/-- The value of the longest run of leading decimal digits, continuing from `acc`. -/
def strtolDigits : List Char → Nat → Nat
  | [], acc => acc
  | c :: cs, acc => if c.isDigit then strtolDigits cs (10 * acc + (c.toNat - 48)) else acc

/-- The call `strtol(nptr, NULL, 10)`: leading white space is skipped, an optional
sign is read, then decimal digits up to the first other character; a value
outside `long` is clamped. -/
def strtol (nptr : String) : Int :=
  match nptr.toList.dropWhile isspace with
  | '-' :: cs => max LONG_MIN (-(strtolDigits cs 0 : Int))
  | '+' :: cs => min LONG_MAX (strtolDigits cs 0 : Int)
  | cs => min LONG_MAX (strtolDigits cs 0 : Int)

/-- Conversion of a `long` to `int32_t`: the value modulo `2^32`, in two's complement. -/
def toInt32 (x : Int) : Int := (x + 2 ^ 31) % 2 ^ 32 - 2 ^ 31

/-- Conversion to `uint64_t`: the value modulo `2^64`. -/
def toUInt64 (x : Int) : Nat := (x % 2 ^ 64).toNat

/-- Conversion of a floating value to an integer type: the fractional part is discarded. -/
noncomputable def truncate (x : ℝ) : Int := if 0 ≤ x then ⌊x⌋ else ⌈x⌉

/-- Largest value of `int32_t`. -/
def INT32_MAX : Int := 2147483647

/-- Smallest value of `int32_t`. -/
def INT32_MIN : Int := -2147483648

/-! ## Double arithmetic -/

/-- The `double` nearest to the real `x`: the multiple of `2^(e - 52)` nearest to `x`,
where `2^e ≤ |x| < 2^(e + 1)`; of two nearest multiples, the even one. -/
noncomputable def rnd (x : ℝ) : ℝ :=
  (if x / 2 ^ (Int.log 2 |x| - 52) - ⌊x / 2 ^ (Int.log 2 |x| - 52)⌋ < 1 / 2 then
      (⌊x / 2 ^ (Int.log 2 |x| - 52)⌋ : ℝ)
    else if 1 / 2 < x / 2 ^ (Int.log 2 |x| - 52) - ⌊x / 2 ^ (Int.log 2 |x| - 52)⌋ then
      (⌊x / 2 ^ (Int.log 2 |x| - 52)⌋ : ℝ) + 1
    else if ⌊x / 2 ^ (Int.log 2 |x| - 52)⌋ % 2 = 0 then (⌊x / 2 ^ (Int.log 2 |x| - 52)⌋ : ℝ)
    else (⌊x / 2 ^ (Int.log 2 |x| - 52)⌋ : ℝ) + 1) * 2 ^ (Int.log 2 |x| - 52)

/-- The function `log` of the C library on a `double`: the `double` nearest to the
natural logarithm. -/
noncomputable def logd (x : ℝ) : ℝ := rnd (Real.log x)

/-! ## Precision plan (lines 125 and 129) -/

/-- The initialiser of `steps` (line 125) before its conversion to `int32_t`: the
`double` value of `((double)digits * log((double)BASE) / (4.0 * log(2.0)) + 10.0)*1.0001`
with its fractional part discarded.  The conversions of `digits` and `BASE` to
`double` are exact. -/
noncomputable def steps (digits BASE : Int) : Int :=
  truncate (rnd (rnd (rnd (rnd ((digits : ℝ) * logd (BASE : ℝ)) / rnd (4 * logd 2)) + 10)
    * rnd 1.0001))

/-- The argument of `mpf_set_default_prec` (line 129): the `double` value of
`digits*log((double)BASE)/log(2.0) + 10.0` with its fractional part discarded. -/
noncomputable def default_prec (digits BASE : Int) : Int :=
  truncate (rnd (rnd (rnd ((digits : ℝ) * logd (BASE : ℝ)) / logd 2) + 10))

/-! ## GMP floating-point functions, in exact arithmetic -/

/-- The call `mpf_div_ui(rop, op1, op2)`; GMP raises a division-by-zero error for `op2 = 0`. -/
def mpf_div_ui (op1 : ℚ) (op2 : Nat) : Option ℚ :=
  if op2 = 0 then none else some (op1 / (op2 : ℚ))

/-- The call `mpf_mul_2exp(rop, op1, op2)`: `op1 * 2^op2`. -/
def mpf_mul_2exp (op1 : ℚ) (op2 : Nat) : ℚ := op1 * 2 ^ op2

/-- The call `mpf_div_2exp(rop, op1, op2)`: `op1 / 2^op2`. -/
def mpf_div_2exp (op1 : ℚ) (op2 : Nat) : ℚ := op1 / 2 ^ op2

/-- The call `mpf_sub(rop, op1, op2)`. -/
def mpf_sub (op1 op2 : ℚ) : ℚ := op1 - op2

/-- The call `mpf_add(rop, op1, op2)`. -/
def mpf_add (op1 op2 : ℚ) : ℚ := op1 + op2

/-- The call `mpf_sub_ui(rop, op1, op2)`. -/
def mpf_sub_ui (op1 : ℚ) (op2 : Nat) : ℚ := op1 - (op2 : ℚ)

/-- The digit alphabet of `mpf_get_str` for a positive `base`: digits and lower-case
letters up to base 36, digits, upper-case and lower-case letters above. -/
def num_to_text (base : Nat) : List Char :=
  if base ≤ 36 then "0123456789abcdefghijklmnopqrstuvwxyz".toList
  else "0123456789ABCDEFGHIJKLMNOPQRSTUVWXYZabcdefghijklmnopqrstuvwxyz".toList

/-- The `count` lowest base-`base` digits of `m`, least significant first. -/
def lowDigits (base : Nat) : Nat → Nat → List Nat
  | 0, _ => []
  | count + 1, m => (m % base) :: lowDigits base count (m / base)

/-- The number of base-`base` digits of `m` (none for `0`), by at most `fuel` divisions. -/
def numDigitsAux (base : Nat) : Nat → Nat → Nat
  | 0, _ => 0
  | fuel + 1, m => if m = 0 then 0 else 1 + numDigitsAux base fuel (m / base)

/-- The number of base-`base` digits of `m`. -/
def numDigits (base m : Nat) : Nat := numDigitsAux base m m

/-- The number of zero digits between the radix point and the first non-zero digit
of `u`, for `0 < u < 1`, by at most `fuel` multiplications. -/
def leadingZeros (base : Nat) : Nat → ℚ → Nat
  | 0, _ => 0
  | fuel + 1, u => if 1 ≤ u * base then 0 else 1 + leadingZeros base fuel (u * base)

/-- The rounding loop of `mpf_get_str` on the kept digits, least significant first:
the last digit is incremented; a digit that reaches `base` is dropped and the
carry moves on; when every digit is dropped the result is the single digit 1. -/
def roundUp (base : Nat) : List Nat → List Nat
  | [] => [1]
  | d :: ds => if d + 1 = base then roundUp base ds else (d + 1) :: ds

/-- The digits `mpf_get_str` produces for a positive operand `u`, most significant
first: the first `n_digits + 1` digits of `u` are generated, the last of them
decides the rounding (`2 * digit ≥ base` rounds up), trailing zeros are removed. -/
def significand (base n_digits : Nat) (u : ℚ) : List Nat :=
  let scaled : Nat :=
    if 1 ≤ u then ⌊u * (base : ℚ) ^ (n_digits + 1) / (base : ℚ) ^ numDigits base ⌊u⌋₊⌋₊
    else ⌊u * (base : ℚ) ^ (n_digits + 1 + leadingZeros base u.den u)⌋₊
  match lowDigits base (n_digits + 1) scaled with
  | [] => []
  | next :: kept =>
    ((if base ≤ 2 * next then roundUp base kept else kept).dropWhile (· = 0)).reverse

/-- The string `mpf_get_str(str, expptr, base, n_digits, op)` writes: empty for zero,
a minus sign first for a negative operand, no radix point. -/
def mpf_get_str (base n_digits : Nat) (op : ℚ) : List Char :=
  if op = 0 then []
  else
    let text := (significand base n_digits |op|).map fun d => (num_to_text base).getD d '?'
    if op < 0 then '-' :: text else text

/-! ## The summation loop (lines 151 to 172) -/

/-- One pass of the loop body for the index `k`: the new value of `n`, or `none`
when a divisor is zero. -/
def iteration (k : Int) (n : ℚ) : Option ℚ := do
  let temp ← mpf_div_ui 1 (toUInt64 (8 * k + 1))
  let temp := mpf_mul_2exp temp 2
  let temp2 ← mpf_div_ui 1 (toUInt64 (8 * k + 4))
  let temp2 := mpf_mul_2exp temp2 1
  let temp := mpf_sub temp temp2
  let temp2 ← mpf_div_ui 1 (toUInt64 (8 * k + 5))
  let temp := mpf_sub temp temp2
  let temp2 ← mpf_div_ui 1 (toUInt64 (8 * k + 6))
  let temp := mpf_sub temp temp2
  let temp := mpf_div_2exp temp (toUInt64 (4 * k))
  pure (mpf_add n temp)

/-- The loop `for (k = ...; k >= 0; k--)` entered with the index `k`, the accumulator
`n` and the indices visited so far: the final accumulator and all indices visited. -/
def loop (k : Int) (n : ℚ) (visited : List Int) : Option (ℚ × List Int) :=
  if 0 ≤ k then
    match iteration k n with
    | none => none
    | some n' => loop (k - 1) n' (visited ++ [k])
  else some (n, visited)
termination_by (k + 1).toNat
decreasing_by omega

/-! ## Rendering (lines 183 to 207) -/

/-- The padding loop `for (k = 0; k < digits - len; k++) strcat(padding, "0")`,
entered with the index `k` and the current `padding`; `bound` is `digits - len`. -/
def padLoop (k bound : Int) (padding : List Char) : List Char :=
  if k < bound then padLoop (k + 1) bound (padding ++ ['0']) else padding
termination_by (bound - k).toNat
decreasing_by omega

/-- Lines 189 to 207 applied to the string `str` written by `mpf_get_str`: the
digit line sent to the output, without its newline.  Overwriting the first
character of an empty string destroys its terminator: `none`. -/
def render (digits BASE : Int) (str : List Char) : Option (List Char) :=
  match str with
  | [] => none
  | _ :: rest =>
    let string := '.' :: rest
    let len : Int := (string.length : Int) - 1
    let string := if len < digits then string ++ padLoop 0 (digits - len) [] else string
    if BASE = 2 then some ('1' :: '1' :: string)
    else if BASE = 3 then some ('1' :: '0' :: string)
    else some ('3' :: string)

/-- Lines 131 to 207 for a given term count: the value handed to the string
conversion, the loop indices visited, and the digit line.  The sizes `digits + 1`
and `digits + 2` are taken as computed; `main` checks that they fit `int32_t`. -/
def compute (steps digits BASE : Int) : Option (ℚ × List Int × List Char) := do
  let (n, visited) ← loop (steps - 1) 0 []
  let n := mpf_sub_ui n 2
  let line ← render digits BASE (mpf_get_str BASE.toNat (digits + 1).toNat n)
  pure (n, visited, line)

/-! ## The program -/

/-- What a defined run of `main` does: it prints an error message and returns `-1`,
or it sets the precision, sums the series, prints the digit line and returns `0`. -/
inductive Outcome
  | error (message : String)
  | success (prec : Int) (visited : List Int) (n : ℚ) (line : List Char)

/-- The return value of `main`. -/
def Outcome.status : Outcome → Int
  | Outcome.error _ => -1
  | Outcome.success _ _ _ _ => 0

/-- The digit line of a run, when one is printed. -/
def Outcome.line : Outcome → Option (List Char)
  | Outcome.error _ => none
  | Outcome.success _ _ _ line => some line

/-- The function `main` on the argument vector `argv` (`argc` is its length); `none`
when the run is undefined: the term count of line 125 does not fit `int32_t`, or
the additions `digits + 1` and `digits + 2` of lines 187 and 188 overflow. -/
noncomputable def main (argv : List String) : Option Outcome :=
  if argv.length < 2 then some (Outcome.error " Error: argument is required")
  else
    let digits := toInt32 (strtol (argv.getD 1 ""))
    if digits ≤ 0 then some (Outcome.error " Error: positive digits is required")
    else
      let BASE : Int := if 2 < argv.length then toInt32 (strtol (argv.getD 2 "")) else 10
      if 2 < argv.length ∧ (BASE < 2 ∨ 62 < BASE) then
        some (Outcome.error " Error: BASE may only vary from 2 to 62")
      else if steps digits BASE < INT32_MIN ∨ INT32_MAX < steps digits BASE then none
      else if INT32_MAX < digits + 2 then none
      else
        (compute (steps digits BASE) digits BASE).map fun r =>
          Outcome.success (default_prec digits BASE) r.2.1 r.1 r.2.2

/-- The digit line a run on `argv` prints. -/
noncomputable def digitOutput (argv : List String) : Option (List Char) :=
  (main argv).bind Outcome.line

/-! ## Vocabulary of the specification -/

/-- The bracket of the series: `4/(8k+1) - 2/(8k+4) - 1/(8k+5) - 1/(8k+6)`. -/
def bracket (k : Nat) : ℚ :=
  4 / (8 * (k : ℚ) + 1) - 2 / (8 * (k : ℚ) + 4) - 1 / (8 * (k : ℚ) + 5) - 1 / (8 * (k : ℚ) + 6)

/-- The sum of the first `N` terms `bracket k / 16^k` of the series. -/
def seriesSum (N : Nat) : ℚ := ∑ k in Finset.range N, bracket k / 16 ^ k

/-- The characters of a printed line after its radix marker. -/
def fractionalPart (line : List Char) : List Char := (line.dropWhile (· ≠ '.')).drop 1

/-- The characters of a printed line before its radix marker. -/
def integerPart (line : List Char) : List Char := line.takeWhile (· ≠ '.')

/-- The value of a string of digits of the alphabet of `base`, read in that base. -/
def digitsValue (base : Nat) (cs : List Char) : Nat :=
  cs.foldl (fun acc c => acc * base + (num_to_text base).indexOf c) 0

/-- The integer `mpf_get_str` keeps of an operand `u` in `[1, 2)` asked for `d + 1`
digits: the first `d + 1` digits of `u`, plus one when the next digit rounds up. -/
def keptValue (base d : Nat) (u : ℚ) : Nat :=
  ⌊u * (base : ℚ) ^ d⌋₊ + (if base ≤ 2 * (⌊u * (base : ℚ) ^ (d + 1)⌋₊ % base) then 1 else 0)

/-- The value `a` is the exact value `A` after at most `k` roundings of `double`
arithmetic on non-negative operands: `A * (1 - 2^-53)^k ≤ a` and `a * (1 - 2^-53)^k ≤ A`. -/
def Near (k : Nat) (a A : ℝ) : Prop :=
  A * (1 - 1 / 2 ^ 53) ^ k ≤ a ∧ a * (1 - 1 / 2 ^ 53) ^ k ≤ A

/-- The value of a printed line (integer digits, radix marker, fractional digits)
read as a numeral in `base`. -/
def numeralValue (base : Nat) (line : List Char) : ℚ :=
  (digitsValue base (integerPart line) : ℚ)
    + (digitsValue base (fractionalPart line) : ℚ) / (base : ℚ) ^ (fractionalPart line).length

/-! ## The series and the loop -/

theorem toUInt64_of_nonneg_lt (x : Int) (h0 : 0 ≤ x) (h : x < 2 ^ 64) :
    toUInt64 x = x.toNat := by
  unfold toUInt64
  rw [Int.emod_eq_of_lt h0 h]

theorem toUInt64_ne_zero_of_odd_rem (k c : Int) (hc : c % 8 ≠ 0) (hc0 : 0 ≤ c) (hc8 : c < 8) :
    toUInt64 (8 * k + c) ≠ 0 := by
  unfold toUInt64
  have h : (8 * k + c) % 2 ^ 64 ≠ 0 := by
    norm_num
    omega
  have h2 : 0 ≤ (8 * k + c) % 2 ^ 64 := Int.emod_nonneg _ (by norm_num)
  omega

/-- The value one pass of the loop adds for the index `k`, with the unsigned
64-bit divisors and shift count the code computes. -/
theorem iteration_total (k : Int) (n : ℚ) :
    iteration k n = some (n +
      ((1 / (toUInt64 (8 * k + 1) : ℚ)) * 2 ^ 2 - (1 / (toUInt64 (8 * k + 4) : ℚ)) * 2 ^ 1
        - 1 / (toUInt64 (8 * k + 5) : ℚ) - 1 / (toUInt64 (8 * k + 6) : ℚ))
        / 2 ^ toUInt64 (4 * k)) := by
  have h1 := toUInt64_ne_zero_of_odd_rem k 1 (by decide) (by decide) (by decide)
  have h4 := toUInt64_ne_zero_of_odd_rem k 4 (by decide) (by decide) (by decide)
  have h5 := toUInt64_ne_zero_of_odd_rem k 5 (by decide) (by decide) (by decide)
  have h6 := toUInt64_ne_zero_of_odd_rem k 6 (by decide) (by decide) (by decide)
  simp [iteration, mpf_div_ui, h1, h4, h5, h6, mpf_mul_2exp, mpf_sub, mpf_add, mpf_div_2exp,
    bind, pure]

theorem iteration_eq_bracket (k : Nat) (hk : k < 2 ^ 60) (n : ℚ) :
    iteration (k : Int) n = some (n + bracket k / 16 ^ k) := by
  rw [iteration_total]
  have e : ∀ c : Nat, c < 8 → toUInt64 (8 * (k : Int) + (c : Int)) = 8 * k + c := by
    intro c hc
    rw [toUInt64_of_nonneg_lt _ (by positivity) (by norm_num at hk ⊢; omega)]
    omega
  have e1 := e 1 (by decide)
  have e4 := e 4 (by decide)
  have e5 := e 5 (by decide)
  have e6 := e 6 (by decide)
  have e0 : toUInt64 (4 * (k : Int)) = 4 * k := by
    rw [toUInt64_of_nonneg_lt _ (by positivity) (by norm_num at hk ⊢; omega)]
    omega
  simp only [Nat.cast_ofNat, Nat.cast_one] at e1 e4 e5 e6
  rw [e1, e4, e5, e6, e0]
  congr 1
  congr 1
  unfold bracket
  have hp : (2 : ℚ) ^ (4 * k) = 16 ^ k := by
    rw [pow_mul]; norm_num
  rw [hp]
  push_cast
  ring

theorem loop_eq (N : Nat) (hN : N ≤ 2 ^ 60) (n : ℚ) (visited : List Int) :
    loop ((N : Int) - 1) n visited
      = some (n + seriesSum N, visited ++ (List.range N).reverse.map (fun k : Nat => (k : Int))) := by
  induction N generalizing n visited with
  | zero =>
    rw [loop]
    simp [seriesSum]
  | succ m ih =>
    rw [loop]
    have hm : m < 2 ^ 60 := by omega
    have h0 : (0 : Int) ≤ ((m + 1 : Nat) : Int) - 1 := by push_cast; omega
    have hk : ((m + 1 : Nat) : Int) - 1 = (m : Int) := by push_cast; omega
    rw [if_pos h0, hk, iteration_eq_bracket m hm]
    simp only
    rw [ih (by omega)]
    simp only [seriesSum, Finset.sum_range_succ, List.range_succ, List.reverse_append,
      List.reverse_singleton, List.map_cons, List.singleton_append, List.append_assoc,
      Option.some.injEq, Prod.mk.injEq, List.map_append, List.map_nil]
    exact ⟨by ring, trivial⟩

theorem bracket_closed_form (k : Nat) :
    bracket k = (120 * (k : ℚ) ^ 2 + 151 * k + 47)
      / ((2 * k + 1) * (4 * k + 3) * (8 * k + 1) * (8 * k + 5)) := by
  unfold bracket
  have hk : (0 : ℚ) ≤ k := Nat.cast_nonneg k
  have h1 : (8 * (k : ℚ) + 1) ≠ 0 := by positivity
  have h4 : (8 * (k : ℚ) + 4) ≠ 0 := by positivity
  have h5 : (8 * (k : ℚ) + 5) ≠ 0 := by positivity
  have h6 : (8 * (k : ℚ) + 6) ≠ 0 := by positivity
  have h2 : (2 * (k : ℚ) + 1) ≠ 0 := by positivity
  have h3 : (4 * (k : ℚ) + 3) ≠ 0 := by positivity
  field_simp
  ring

theorem bracket_pos (k : Nat) : 0 < bracket k := by
  rw [bracket_closed_form]
  positivity

theorem bracket_le (k : Nat) (hk : 1 ≤ k) : bracket k ≤ 4 / 9 := by
  unfold bracket
  have hk' : (1 : ℚ) ≤ k := by exact_mod_cast hk
  have h1 : (0 : ℚ) < 2 / (8 * (k : ℚ) + 4) := by positivity
  have h2 : (0 : ℚ) < 1 / (8 * (k : ℚ) + 5) := by positivity
  have h3 : (0 : ℚ) < 1 / (8 * (k : ℚ) + 6) := by positivity
  have h4 : 4 / (8 * (k : ℚ) + 1) ≤ 4 / 9 := by
    apply div_le_div_of_nonneg_left <;> linarith
  linarith

theorem seriesSum_succ (N : Nat) : seriesSum (N + 1) = seriesSum N + bracket N / 16 ^ N := by
  simp [seriesSum, Finset.sum_range_succ]

theorem seriesSum_one : seriesSum 1 = 47 / 15 := by
  rw [seriesSum_succ]
  norm_num [seriesSum, bracket]

theorem seriesSum_mono {N M : Nat} (h : N ≤ M) : seriesSum N ≤ seriesSum M := by
  induction M, h using Nat.le_induction with
  | base => exact le_refl _
  | succ m _ ih =>
    rw [seriesSum_succ]
    have : 0 < bracket m / 16 ^ m := div_pos (bracket_pos m) (by positivity)
    linarith

/-- The sum plus half a unit of the next power of `1/16` decreases. -/
theorem seriesSum_tail {N M : Nat} (hN : 1 ≤ N) (h : N ≤ M) :
    seriesSum M + 1 / 2 / 16 ^ M ≤ seriesSum N + 1 / 2 / 16 ^ N := by
  induction M, h using Nat.le_induction with
  | base => exact le_refl _
  | succ m hm ih =>
    rw [seriesSum_succ]
    have hb := bracket_le m (le_trans hN hm)
    have hp : (0 : ℚ) < 16 ^ m := by positivity
    have e : (1 : ℚ) / 2 / 16 ^ (m + 1) = 1 / 32 / 16 ^ m := by
      rw [pow_succ]; field_simp; ring
    have hstep : bracket m / 16 ^ m + 1 / 32 / 16 ^ m ≤ 1 / 2 / 16 ^ m := by
      rw [← add_div]
      apply div_le_div_of_nonneg_right _ hp.le
      linarith
    rw [e]
    linarith

theorem seriesSum_lower {N : Nat} (hN : 1 ≤ N) : 47 / 15 ≤ seriesSum N := by
  have := seriesSum_mono hN
  rwa [seriesSum_one] at this

theorem seriesSum_upper {N : Nat} (hN : 1 ≤ N) : seriesSum N < 16 / 5 := by
  have h := seriesSum_tail (le_refl 1) hN
  rw [seriesSum_one] at h
  have hp : (0 : ℚ) < 1 / 2 / 16 ^ N := by positivity
  norm_num at h
  linarith

theorem visited_decreasing (N : Nat) :
    List.Pairwise (fun a b : Int => b < a) ((List.range N).reverse.map (fun k : Nat => (k : Int))) := by
  rw [List.pairwise_map, List.pairwise_reverse]
  exact (List.pairwise_lt_range N).imp (fun h => by exact_mod_cast h)

/-- C9: in exact arithmetic, for a term count `N` of the range of `int32_t` the loop
ends after exactly `N` passes, visiting `N-1, ..., 0` in strictly decreasing order;
each pass adds `(4*(1/(8k+1)) - 2*(1/(8k+4)) - 1/(8k+5) - 1/(8k+6)) / 2^(4k)` and
the accumulated value is the sum over `k < N` of
`(4/(8k+1) - 2/(8k+4) - 1/(8k+5) - 1/(8k+6)) / 16^k`. -/
theorem loop_sums_series (N : Nat) (hN : N ≤ 2147483647) :
    ∃ visited : List Int,
      loop ((N : Int) - 1) 0 [] = some
        (∑ k in Finset.range N,
          (4 / (8 * (k : ℚ) + 1) - 2 / (8 * (k : ℚ) + 4) - 1 / (8 * (k : ℚ) + 5)
            - 1 / (8 * (k : ℚ) + 6)) / 16 ^ k, visited)
      ∧ visited = (List.range N).reverse.map (fun k : Nat => (k : Int))
      ∧ visited.length = N
      ∧ List.Pairwise (fun a b : Int => b < a) visited
      ∧ ∀ k : Nat, k < N → ∀ n : ℚ, iteration (k : Int) n = some (n +
          (4 * (1 / (8 * (k : ℚ) + 1)) - 2 * (1 / (8 * (k : ℚ) + 4)) - 1 / (8 * (k : ℚ) + 5)
            - 1 / (8 * (k : ℚ) + 6)) / 2 ^ (4 * k)) := by
  refine ⟨(List.range N).reverse.map (fun k : Nat => (k : Int)), ?_, rfl, by simp, visited_decreasing N, ?_⟩
  · have h := loop_eq N (by norm_num; omega) 0 []
    simpa [seriesSum, bracket] using h
  · intro k hk n
    rw [iteration_eq_bracket k (by norm_num; omega) n]
    have hp : (2 : ℚ) ^ (4 * k) = 16 ^ k := by
      rw [pow_mul]; norm_num
    rw [hp]
    unfold bracket
    congr 2
    ring

theorem loop_sums_series_witness :
    ∃ visited : List Int,
      loop (((3 : Nat) : Int) - 1) 0 [] = some
        (∑ k in Finset.range 3,
          (4 / (8 * (k : ℚ) + 1) - 2 / (8 * (k : ℚ) + 4) - 1 / (8 * (k : ℚ) + 5)
            - 1 / (8 * (k : ℚ) + 6)) / 16 ^ k, visited)
      ∧ visited = (List.range 3).reverse.map (fun k : Nat => (k : Int))
      ∧ visited.length = 3
      ∧ List.Pairwise (fun a b : Int => b < a) visited
      ∧ ∀ k : Nat, k < 3 → ∀ n : ℚ, iteration (k : Int) n = some (n +
          (4 * (1 / (8 * (k : ℚ) + 1)) - 2 * (1 / (8 * (k : ℚ) + 4)) - 1 / (8 * (k : ℚ) + 5)
            - 1 / (8 * (k : ℚ) + 6)) / 2 ^ (4 * k)) :=
  loop_sums_series 3 (by decide)

theorem padLoop_eq (m : Nat) : ∀ (k bound : Int) (padding : List Char),
    (bound - k).toNat = m → padLoop k bound padding = padding ++ List.replicate m '0' := by
  induction m with
  | zero =>
    intro k bound padding h
    rw [padLoop, if_neg (by omega)]
    simp
  | succ m ih =>
    intro k bound padding h
    rw [padLoop, if_pos (by omega), ih (k + 1) bound _ (by omega)]
    simp [List.replicate_succ]

/-- The integer digits the three-way test of lines 202 to 207 prints for `BASE`. -/
theorem render_cons (digits BASE : Int) (c : Char) (rest : List Char) :
    render digits BASE (c :: rest)
      = some ((if BASE = 2 then ['1', '1'] else if BASE = 3 then ['1', '0'] else ['3'])
          ++ '.' :: (rest ++ List.replicate (digits - (rest.length : Int)).toNat '0')) := by
  have hpad : (if ((('.' :: rest).length : Int) - 1) < digits
      then ('.' :: rest) ++ padLoop 0 (digits - ((('.' :: rest).length : Int) - 1)) []
      else '.' :: rest)
      = '.' :: (rest ++ List.replicate (digits - (rest.length : Int)).toNat '0') := by
    have hl : ((('.' :: rest).length : Int) - 1) = (rest.length : Int) := by
      simp
    rw [hl]
    split_ifs with h
    · rw [padLoop_eq (digits - (rest.length : Int)).toNat 0 _ [] (by simp)]
      simp
    · have : (digits - (rest.length : Int)).toNat = 0 := by omega
      simp [this]
  unfold render
  simp only
  rw [hpad]
  split_ifs <;> simp

theorem fractionalPart_lead (BASE : Int) (frac : List Char) :
    fractionalPart ((if BASE = 2 then ['1', '1'] else if BASE = 3 then ['1', '0'] else ['3'])
      ++ '.' :: frac) = frac := by
  unfold fractionalPart
  split_ifs <;> simp [List.dropWhile]

/-- C3: for a positive digit count and a string `s` of the conversion with
`1 ≤ length s ≤ digits + 1`, the characters printed after the radix marker are those
of `s` after its first, followed by `digits - (length s - 1)` characters `0`; there
are exactly `digits` of them, and nothing is appended when `length s = digits + 1`. -/
theorem render_fractional (digits BASE : Int) (s : List Char) (_hd : 0 < digits)
    (h1 : 1 ≤ s.length) (h2 : (s.length : Int) ≤ digits + 1) :
    ∃ line, render digits BASE s = some line
      ∧ fractionalPart line
          = s.tail ++ List.replicate (digits - ((s.length : Int) - 1)).toNat '0'
      ∧ ((fractionalPart line).length : Int) = digits
      ∧ ((s.length : Int) = digits + 1 → fractionalPart line = s.tail) := by
  cases s with
  | nil => simp at h1
  | cons c rest =>
    refine ⟨_, render_cons digits BASE c rest, ?_⟩
    rw [fractionalPart_lead]
    simp only [List.length_cons, Nat.cast_add, Nat.cast_one, add_sub_cancel_right,
      List.tail_cons, List.length_append, List.length_replicate] at h2 ⊢
    refine ⟨trivial, by omega, ?_⟩
    intro h
    have : (digits - (rest.length : Int)).toNat = 0 := by omega
    simp [this]

theorem render_fractional_witness :
    ∃ line, render 5 10 ['1', '2', '5'] = some line
      ∧ fractionalPart line
          = ['1', '2', '5'].tail ++ List.replicate (5 - ((['1', '2', '5'].length : Int) - 1)).toNat '0'
      ∧ ((fractionalPart line).length : Int) = 5
      ∧ ((['1', '2', '5'].length : Int) = 5 + 1 → fractionalPart line = ['1', '2', '5'].tail) :=
  render_fractional 5 10 ['1', '2', '5'] (by decide) (by decide) (by decide)

theorem numDigits_one (b : Nat) (hb : 2 ≤ b) : numDigits b 1 = 1 := by
  have h : 1 / b = 0 := Nat.div_eq_of_lt (by omega)
  simp [numDigits, numDigitsAux]

/-- For an operand in `[1, 2)` the digits generated are those of `⌊u * base^n_digits⌋`. -/
theorem significand_unit (b n : Nat) (u : ℚ) (hb : 2 ≤ b) (h1 : 1 ≤ u) (h2 : u < 2) :
    significand b n u
      = ((if b ≤ 2 * (⌊u * (b : ℚ) ^ n⌋₊ % b)
            then roundUp b (lowDigits b n (⌊u * (b : ℚ) ^ n⌋₊ / b))
            else lowDigits b n (⌊u * (b : ℚ) ^ n⌋₊ / b)).dropWhile (· = 0)).reverse := by
  have hf : ⌊u⌋₊ = 1 := by
    rw [Nat.floor_eq_iff (by linarith)]
    constructor
    · exact_mod_cast h1
    · norm_num; linarith
  have hb0 : (b : ℚ) ≠ 0 := by
    have : (0 : ℚ) < b := by exact_mod_cast (by omega : 0 < b)
    exact this.ne'
  have hs : u * (b : ℚ) ^ (n + 1) / (b : ℚ) ^ numDigits b ⌊u⌋₊ = u * (b : ℚ) ^ n := by
    rw [hf, numDigits_one b hb, pow_succ]
    field_simp
    ring
  unfold significand
  simp only [if_pos h1, hs, lowDigits]

theorem roundUp_head (b : Nat) (ds : List Nat) :
    ∃ d rest, roundUp b ds = d :: rest ∧ d ≠ 0 := by
  induction ds with
  | nil => exact ⟨1, [], rfl, one_ne_zero⟩
  | cons d ds ih =>
    unfold roundUp
    split_ifs with h
    · exact ih
    · exact ⟨d + 1, ds, rfl, Nat.succ_ne_zero d⟩

theorem lowDigits_exists_ne_zero (b : Nat) (hb : 1 ≤ b) (n : Nat) :
    ∀ m : Nat, m ≠ 0 → m < b ^ n → ∃ d ∈ lowDigits b n m, d ≠ 0 := by
  induction n with
  | zero =>
    intro m hm h
    simp at h
    exact absurd h hm
  | succ n ih =>
    intro m hm h
    by_cases h0 : m % b = 0
    · have hdiv : m / b ≠ 0 := by
        intro hz
        have := Nat.div_add_mod m b
        rw [hz, h0] at this
        simp at this
        exact hm this.symm
      have hlt : m / b < b ^ n := by
        rw [Nat.div_lt_iff_lt_mul (by omega)]
        rw [pow_succ] at h
        exact h
      obtain ⟨d, hd, hd0⟩ := ih (m / b) hdiv hlt
      exact ⟨d, by simp [lowDigits, hd], hd0⟩
    · exact ⟨m % b, by simp [lowDigits], h0⟩

theorem floor_scaled_bounds (b n : Nat) (u : ℚ) (hb : 2 ≤ b) (h1 : 1 ≤ u) (h2 : u < 2) :
    b ^ n ≤ ⌊u * (b : ℚ) ^ n⌋₊ ∧ ⌊u * (b : ℚ) ^ n⌋₊ < 2 * b ^ n := by
  have hp : (0 : ℚ) < (b : ℚ) ^ n := by
    have : (0 : ℚ) < b := by exact_mod_cast (by omega : 0 < b)
    positivity
  constructor
  · apply Nat.le_floor
    push_cast
    nlinarith
  · rw [Nat.floor_lt (by positivity)]
    push_cast
    nlinarith

theorem significand_ne_nil (b n : Nat) (u : ℚ) (hb : 2 ≤ b) (hn : 1 ≤ n)
    (h1 : 1 ≤ u) (h2 : u < 2) : significand b n u ≠ [] := by
  rw [significand_unit b n u hb h1 h2]
  obtain ⟨hlo, hhi⟩ := floor_scaled_bounds b n u hb h1 h2
  set M := ⌊u * (b : ℚ) ^ n⌋₊
  intro h
  rw [List.reverse_eq_nil_iff, List.dropWhile_eq_nil_iff] at h
  split_ifs at h with hr
  · obtain ⟨d, rest, e, hd⟩ := roundUp_head b (lowDigits b n (M / b))
    rw [e] at h
    have := h d (by simp)
    simp at this
    exact hd this
  · have hM0 : M / b ≠ 0 := by
      have : b ≤ M := le_trans (Nat.le_self_pow (by omega) b) hlo
      exact (Nat.div_pos this (by omega)).ne'
    have hMlt : M / b < b ^ n := by
      rw [Nat.div_lt_iff_lt_mul (by omega)]
      calc M < 2 * b ^ n := hhi
        _ ≤ b * b ^ n := Nat.mul_le_mul_right _ hb
        _ = b ^ n * b := by ring
    obtain ⟨d, hd, hd0⟩ := lowDigits_exists_ne_zero b (by omega) n (M / b) hM0 hMlt
    have := h d hd
    simp at this
    exact hd0 this

theorem mpf_get_str_ne_nil (b n : Nat) (op : ℚ) (hb : 2 ≤ b) (hn : 1 ≤ n)
    (h : op < 0 ∨ (1 ≤ op ∧ op < 2)) : mpf_get_str b n op ≠ [] := by
  unfold mpf_get_str
  rcases h with h | ⟨h1, h2⟩
  · simp [h.ne, h]
  · have h0 : op ≠ 0 := by linarith
    have hneg : ¬ op < 0 := by linarith
    have habs : |op| = op := abs_of_pos (by linarith)
    simp only [h0, if_false, hneg, habs]
    intro hm
    rw [List.map_eq_nil_iff] at hm
    exact significand_ne_nil b n op hb hn h1 h2 hm

theorem loop_negative (k : Int) (hk : k < 0) (n : ℚ) (visited : List Int) :
    loop k n visited = some (n, visited) := by
  rw [loop, if_neg (by omega)]

theorem loop_steps (s : Int) (hs : s ≤ 2 ^ 60) :
    loop (s - 1) 0 []
      = some (seriesSum s.toNat, (List.range s.toNat).reverse.map (fun k : Nat => (k : Int))) := by
  by_cases h : 0 ≤ s
  · have e : s - 1 = ((s.toNat : Nat) : Int) - 1 := by omega
    rw [e, loop_eq s.toNat (by omega)]
    simp
  · have e : s.toNat = 0 := by omega
    rw [loop_negative _ (by omega), e]
    simp [seriesSum]

/-- The value handed to the string conversion is negative (no term summed) or lies in `[1, 2)`. -/
theorem accumulator_range (N : Nat) :
    seriesSum N - 2 < 0 ∨ (1 ≤ seriesSum N - 2 ∧ seriesSum N - 2 < 2) := by
  rcases Nat.eq_zero_or_pos N with h | h
  · left
    simp [h, seriesSum]
  · right
    have h1 := seriesSum_lower h
    have h2 := seriesSum_upper h
    constructor <;> linarith

theorem compute_eq (s digits BASE : Int) (hs : s ≤ 2 ^ 60) :
    compute s digits BASE
      = (render digits BASE (mpf_get_str BASE.toNat (digits + 1).toNat (seriesSum s.toNat - 2))).map
          fun line => (seriesSum s.toNat - 2,
            (List.range s.toNat).reverse.map (fun k : Nat => (k : Int)), line) := by
  unfold compute
  rw [loop_steps s hs]
  simp only [mpf_sub_ui, Nat.cast_ofNat, bind, Option.bind, pure]
  cases render digits BASE (mpf_get_str BASE.toNat (digits + 1).toNat (seriesSum s.toNat - 2)) <;> rfl

/-- For a positive digit count and a base of at least 2 the computation prints a line:
the integer digits for the base, the radix marker, then the fractional digits. -/
theorem compute_total (s digits BASE : Int) (hs : s ≤ 2 ^ 60) (hd : 0 < digits) (hb : 2 ≤ BASE) :
    ∃ frac, compute s digits BASE = some (seriesSum s.toNat - 2,
        (List.range s.toNat).reverse.map (fun k : Nat => (k : Int)),
        (if BASE = 2 then ['1', '1'] else if BASE = 3 then ['1', '0'] else ['3']) ++ '.' :: frac) := by
  rw [compute_eq s digits BASE hs]
  have hne := mpf_get_str_ne_nil BASE.toNat (digits + 1).toNat (seriesSum s.toNat - 2)
    (by omega) (by omega) (accumulator_range s.toNat)
  cases hstr : mpf_get_str BASE.toNat (digits + 1).toNat (seriesSum s.toNat - 2) with
  | nil => exact absurd hstr hne
  | cons c rest =>
    rw [render_cons]
    exact ⟨_, rfl⟩

theorem truncate_of_nonneg (x : ℝ) (h : 0 ≤ x) : truncate x = ⌊x⌋ := by
  unfold truncate
  rw [if_pos h]

/-- A lower bound of `log b / log 2` from `2^p ≤ b^q`. -/
theorem le_log_ratio (b p q : Nat) (hq : 0 < q) (h : 2 ^ p ≤ b ^ q) :
    (p : ℝ) / q ≤ Real.log b / Real.log 2 := by
  have h2 : (0 : ℝ) < Real.log 2 := Real.log_pos (by norm_num)
  have hq' : (0 : ℝ) < q := by exact_mod_cast hq
  have hle : Real.log ((2 : ℝ) ^ p) ≤ Real.log ((b : ℝ) ^ q) := by
    apply Real.log_le_log (by positivity)
    exact_mod_cast h
  rw [Real.log_pow, Real.log_pow] at hle
  rw [div_le_div_iff₀ hq' h2]
  linarith

/-- An upper bound of `log b / log 2` from `b^q < 2^p`. -/
theorem log_ratio_lt (b p q : Nat) (hb : 0 < b) (hq : 0 < q) (h : b ^ q < 2 ^ p) :
    Real.log b / Real.log 2 < (p : ℝ) / q := by
  have h2 : (0 : ℝ) < Real.log 2 := Real.log_pos (by norm_num)
  have hq' : (0 : ℝ) < q := by exact_mod_cast hq
  have hb' : (0 : ℝ) < b := by exact_mod_cast hb
  have hlt : Real.log ((b : ℝ) ^ q) < Real.log ((2 : ℝ) ^ p) := by
    apply Real.log_lt_log (by positivity)
    exact_mod_cast h
  rw [Real.log_pow, Real.log_pow] at hlt
  rw [div_lt_div_iff₀ h2 hq']
  linarith

theorem log_ratio_nonneg (b : Int) (hb : 1 ≤ b) : 0 ≤ Real.log b / Real.log 2 := by
  have h2 : (0 : ℝ) < Real.log 2 := Real.log_pos (by norm_num)
  have hb' : (1 : ℝ) ≤ b := by exact_mod_cast hb
  exact div_nonneg (Real.log_nonneg hb') h2.le

theorem log_ratio_le_six (b : Int) (hb : 1 ≤ b) (hb2 : b ≤ 64) :
    Real.log b / Real.log 2 ≤ 6 := by
  have h2 : (0 : ℝ) < Real.log 2 := Real.log_pos (by norm_num)
  have hb' : (0 : ℝ) < b := by exact_mod_cast (by omega : 0 < b)
  have hb64 : (b : ℝ) ≤ 64 := by exact_mod_cast hb2
  rw [div_le_iff₀ h2]
  have : Real.log b ≤ Real.log ((2 : ℝ) ^ 6) := Real.log_le_log hb' (by norm_num; exact hb64)
  rw [Real.log_pow] at this
  push_cast at this
  linarith

theorem toInt32_range (x : Int) : -2 ^ 31 ≤ toInt32 x ∧ toInt32 x < 2 ^ 31 := by
  unfold toInt32
  constructor <;> omega

theorem strtol_ten : toInt32 (strtol "10") = 10 := by decide

theorem mpf_get_str_congr (b n : Nat) (u w : ℚ) (hb : 2 ≤ b) (hu1 : 1 ≤ u) (hu2 : u < 2)
    (hw1 : 1 ≤ w) (hw2 : w < 2) (h : ⌊u * (b : ℚ) ^ n⌋₊ = ⌊w * (b : ℚ) ^ n⌋₊) :
    mpf_get_str b n u = mpf_get_str b n w := by
  unfold mpf_get_str
  have hu0 : u ≠ 0 := by linarith
  have hw0 : w ≠ 0 := by linarith
  have hun : ¬ u < 0 := by linarith
  have hwn : ¬ w < 0 := by linarith
  rw [if_neg hu0, if_neg hw0]
  simp only [if_neg hun, if_neg hwn, abs_of_pos (by linarith : 0 < u),
    abs_of_pos (by linarith : 0 < w)]
  rw [significand_unit b n u hb hu1 hu2, significand_unit b n w hb hw1 hw2, h]

/-- Every accumulator value close enough to the exact sum is converted to the same string. -/
theorem mpf_get_str_near (b n N : Nat) (M : Nat) (eps : ℚ) (n' : ℚ) (hb : 2 ≤ b)
    (hlo : (M : ℚ) ≤ (seriesSum N - 2 - eps) * (b : ℚ) ^ n)
    (hhi : (seriesSum N - 2 + eps) * (b : ℚ) ^ n < (M : ℚ) + 1)
    (h1 : 1 ≤ seriesSum N - 2 - eps) (h2 : seriesSum N - 2 + eps < 2)
    (hn : |n' - seriesSum N| ≤ eps) :
    mpf_get_str b n (mpf_sub_ui n' 2) = mpf_get_str b n (seriesSum N - 2) := by
  have hp : (0 : ℚ) < (b : ℚ) ^ n := by
    have : (0 : ℚ) < b := by exact_mod_cast (by omega : 0 < b)
    positivity
  obtain ⟨ha, hb'⟩ := abs_le.mp hn
  have he : 0 ≤ eps := le_trans (abs_nonneg _) hn
  have hu : mpf_sub_ui n' 2 = n' - 2 := by simp [mpf_sub_ui]
  rw [hu]
  have f1 : ⌊(n' - 2) * (b : ℚ) ^ n⌋₊ = M := by
    rw [Nat.floor_eq_iff (by nlinarith)]
    constructor <;> nlinarith
  have f2 : ⌊(seriesSum N - 2) * (b : ℚ) ^ n⌋₊ = M := by
    rw [Nat.floor_eq_iff (by nlinarith)]
    constructor <;> nlinarith
  exact mpf_get_str_congr b n _ _ hb (by linarith) (by linarith) (by linarith) (by linarith)
    (by rw [f1, f2])

theorem near_10_10 (n' : ℚ) (h : |n' - seriesSum 18| ≤ 1 / 10 ^ 13) :
    render 10 10 (mpf_get_str 10 11 (mpf_sub_ui n' 2)) = some "3.1415926536".toList := by
  rw [mpf_get_str_near 10 11 18 114159265358 (1 / 10 ^ 13) n' (by decide)
    (by decide!) (by decide!) (by decide!) (by decide!) h]
  decide!

theorem near_8_16 (n' : ℚ) (h : |n' - seriesSum 18| ≤ 1 / 10 ^ 13) :
    render 8 16 (mpf_get_str 16 9 (mpf_sub_ui n' 2)) = some "3.243f6a89".toList := by
  rw [mpf_get_str_near 16 9 18 (⌊(seriesSum 18 - 2) * 16 ^ 9⌋₊) (1 / 10 ^ 13) n' (by decide)
    (by decide!) (by decide!) (by decide!) (by decide!) h]
  decide!

theorem integerPart_lead (BASE : Int) (frac : List Char) :
    integerPart ((if BASE = 2 then ['1', '1'] else if BASE = 3 then ['1', '0'] else ['3'])
      ++ '.' :: frac)
      = (if BASE = 2 then ['1', '1'] else if BASE = 3 then ['1', '0'] else ['3']) := by
  unfold integerPart
  split_ifs <;> simp [List.takeWhile]

theorem digitsValue_three (b : Nat) : digitsValue b ['3'] = 3 := by
  unfold digitsValue num_to_text
  split_ifs <;> simp only [List.foldl, zero_mul, zero_add] <;> decide

theorem lowDigits_succ_append (b n : Nat) :
    ∀ m, lowDigits b (n + 1) m = lowDigits b n m ++ [(m / b ^ n) % b] := by
  induction n with
  | zero => intro m; simp [lowDigits]
  | succ n ih =>
    intro m
    rw [lowDigits, ih (m / b)]
    simp only [lowDigits, List.cons_append, List.cons.injEq, true_and]
    rw [Nat.div_div_eq_div_mul, pow_succ, mul_comm]

/-- Rounding up the digits of `m` gives, trailing zeros apart, the digits of `m + 1`. -/
theorem roundUp_lowDigits (b : Nat) (hb : 2 ≤ b) (n : Nat) :
    ∀ m, m + 1 < b ^ n →
      (roundUp b (lowDigits b n m)).dropWhile (· = 0)
        = (lowDigits b n (m + 1)).dropWhile (· = 0) := by
  induction n with
  | zero =>
    intro m h
    simp at h
  | succ n ih =>
    intro m h
    rw [lowDigits, lowDigits, roundUp]
    have hdm := Nat.div_add_mod m b
    have hml := Nat.mod_lt m (by omega : 0 < b)
    by_cases hc : m % b + 1 = b
    · rw [if_pos hc]
      have e1 : (m + 1) % b = 0 := by
        have : m + 1 = b * (m / b + 1) := by
          rw [Nat.mul_add, mul_one]; omega
        rw [this]; exact Nat.mul_mod_right _ _
      have e2 : (m + 1) / b = m / b + 1 := by
        have : m + 1 = b * (m / b + 1) := by
          rw [Nat.mul_add, mul_one]; omega
        rw [this]; exact Nat.mul_div_cancel_left _ (by omega)
      rw [e1, e2, List.dropWhile_cons_of_pos (by simp)]
      apply ih
      have : m + 1 = b * (m / b + 1) := by
        rw [Nat.mul_add, mul_one]; omega
      rw [pow_succ, this, mul_comm] at h
      exact Nat.lt_of_mul_lt_mul_right h
    · rw [if_neg hc]
      have e1 : (m + 1) % b = m % b + 1 := by
        rw [Nat.add_mod]
        have h1 : 1 % b = 1 := Nat.mod_eq_of_lt (by omega)
        rw [h1]
        exact Nat.mod_eq_of_lt (by omega)
      have e2 : (m + 1) / b = m / b := by
        have : m + 1 = (m % b + 1) + b * (m / b) := by omega
        rw [this, Nat.add_mul_div_left _ _ (by omega : 0 < b)]
        rw [Nat.div_eq_of_lt (by omega)]
        simp
      rw [e1, e2]

theorem dropWhile_append_singleton (p : Nat → Bool) (a : Nat) (ha : p a = false) :
    ∀ L : List Nat, (L ++ [a]).dropWhile p = L.dropWhile p ++ [a] := by
  intro L
  induction L with
  | nil => simp [List.dropWhile, ha]
  | cons x xs ih =>
    by_cases hx : p x = true
    · simp [List.dropWhile, hx, ih]
    · simp [List.dropWhile, hx]

theorem floor_pow_succ_div (b d : Nat) (u : ℚ) (hb : 2 ≤ b) :
    ⌊u * (b : ℚ) ^ (d + 1)⌋₊ / b = ⌊u * (b : ℚ) ^ d⌋₊ := by
  rw [← Nat.floor_div_nat]
  congr 1
  have : (b : ℚ) ≠ 0 := by
    have : (0 : ℚ) < b := by exact_mod_cast (by omega : 0 < b)
    exact this.ne'
  rw [pow_succ]
  field_simp
  ring

theorem keptValue_bounds (b d : Nat) (u : ℚ) (hb : 2 ≤ b) (hd : 1 ≤ d)
    (h1 : 1 ≤ u) (h2 : u < 3 / 2) :
    b ^ d ≤ ⌊u * (b : ℚ) ^ d⌋₊ ∧ ⌊u * (b : ℚ) ^ d⌋₊ ≤ keptValue b d u
      ∧ keptValue b d u ≤ ⌊u * (b : ℚ) ^ d⌋₊ + 1 ∧ 2 * ⌊u * (b : ℚ) ^ d⌋₊ < 3 * b ^ d
      ∧ keptValue b d u < 2 * b ^ d := by
  have hp : (0 : ℚ) < (b : ℚ) ^ d := by
    have : (0 : ℚ) < b := by exact_mod_cast (by omega : 0 < b)
    positivity
  have hpow : 2 ≤ b ^ d := le_trans hb (Nat.le_self_pow (by omega) b)
  have hlo : b ^ d ≤ ⌊u * (b : ℚ) ^ d⌋₊ := by
    apply Nat.le_floor
    push_cast
    nlinarith
  have hhi : 2 * ⌊u * (b : ℚ) ^ d⌋₊ < 3 * b ^ d := by
    have h := Nat.floor_le (by positivity : 0 ≤ u * (b : ℚ) ^ d)
    have : (2 * ⌊u * (b : ℚ) ^ d⌋₊ : ℚ) < 3 * (b : ℚ) ^ d := by nlinarith
    exact_mod_cast this
  unfold keptValue
  refine ⟨hlo, by omega, ?_, hhi, ?_⟩
  · split_ifs <;> omega
  · split_ifs <;> omega

theorem bracket_succ_lt (k : Nat) : bracket (k + 1) < bracket k := by
  rw [bracket_closed_form, bracket_closed_form]
  have hk : (0 : ℚ) ≤ k := Nat.cast_nonneg k
  push_cast
  rw [div_lt_div_iff₀ (by positivity) (by positivity)]
  have key : (120 * (k : ℚ) ^ 2 + 151 * k + 47)
        * ((2 * ((k : ℚ) + 1) + 1) * (4 * ((k : ℚ) + 1) + 3) * (8 * ((k : ℚ) + 1) + 1)
            * (8 * ((k : ℚ) + 1) + 5))
      - (120 * ((k : ℚ) + 1) ^ 2 + 151 * ((k : ℚ) + 1) + 47)
        * ((2 * (k : ℚ) + 1) * (4 * k + 3) * (8 * k + 1) * (8 * k + 5))
      = 110709 + 620136 * k + 1330440 * (k : ℚ) ^ 2 + 1360896 * (k : ℚ) ^ 3
          + 662016 * (k : ℚ) ^ 4 + 122880 * (k : ℚ) ^ 5 := by ring
  have hpos : (0 : ℚ) < 110709 + 620136 * k + 1330440 * (k : ℚ) ^ 2 + 1360896 * (k : ℚ) ^ 3
      + 662016 * (k : ℚ) ^ 4 + 122880 * (k : ℚ) ^ 5 := by positivity
  linarith

theorem seriesSum_lt_succ (N : Nat) : seriesSum N < seriesSum (N + 1) := by
  rw [seriesSum_succ]
  have : 0 < bracket N / 16 ^ N := div_pos (bracket_pos N) (by positivity)
  linarith

/-- C16: the bracket of the series in closed form, as rational numbers:
`4/(8k+1) - 2/(8k+4) - 1/(8k+5) - 1/(8k+6)` equals
`(120k^2 + 151k + 47) / ((2k+1)(4k+3)(8k+1)(8k+5))` for every `k ≥ 0`. -/
theorem bracket_identity (k : Nat) :
    bracket k = 4 / (8 * (k : ℚ) + 1) - 2 / (8 * (k : ℚ) + 4) - 1 / (8 * (k : ℚ) + 5)
        - 1 / (8 * (k : ℚ) + 6)
      ∧ 4 / (8 * (k : ℚ) + 1) - 2 / (8 * (k : ℚ) + 4) - 1 / (8 * (k : ℚ) + 5)
          - 1 / (8 * (k : ℚ) + 6)
        = (120 * (k : ℚ) ^ 2 + 151 * k + 47)
            / ((2 * k + 1) * (4 * k + 3) * (8 * k + 1) * (8 * k + 5)) :=
  ⟨rfl, bracket_closed_form k⟩

/-- C17: the bracket is strictly positive and strictly decreasing in `k`, so every
term `bracket k / 16^k` is positive and the exact sums of the first `N` terms are
strictly increasing in `N`. -/
theorem bracket_decreasing_sums_increasing :
    (∀ k : Nat, 0 < bracket k) ∧ (∀ k : Nat, bracket (k + 1) < bracket k)
      ∧ (∀ k : Nat, 0 < bracket k / 16 ^ k) ∧ StrictMono seriesSum :=
  ⟨bracket_pos, bracket_succ_lt, fun k => div_pos (bracket_pos k) (by positivity),
    strictMono_nat_of_lt_succ seriesSum_lt_succ⟩

/-- C15: for a loop index of the range of `int32_t` the four divisors and the shift
count, computed modulo `2^64`, are the mathematical values `8k+1`, `8k+4`, `8k+5`,
`8k+6` and `4k`; no divisor is zero and the pass of the loop divides without error. -/
theorem divisors_do_not_wrap (k : Int) (h0 : 0 ≤ k) (h1 : k ≤ 2147483647) :
    (toUInt64 (8 * k + 1) : Int) = 8 * k + 1 ∧ (toUInt64 (8 * k + 4) : Int) = 8 * k + 4
      ∧ (toUInt64 (8 * k + 5) : Int) = 8 * k + 5 ∧ (toUInt64 (8 * k + 6) : Int) = 8 * k + 6
      ∧ (toUInt64 (4 * k) : Int) = 4 * k
      ∧ toUInt64 (8 * k + 1) ≠ 0 ∧ toUInt64 (8 * k + 4) ≠ 0 ∧ toUInt64 (8 * k + 5) ≠ 0
      ∧ toUInt64 (8 * k + 6) ≠ 0
      ∧ ∀ n : ℚ, ∃ n' : ℚ, iteration k n = some n' := by
  have e : ∀ x : Int, 0 ≤ x → x < 2 ^ 64 → (toUInt64 x : Int) = x := by
    intro x hx0 hx
    rw [toUInt64_of_nonneg_lt x hx0 hx]
    exact Int.toNat_of_nonneg hx0
  have hb : ∀ c : Int, 0 ≤ c → c < 8 → 8 * k + c < 2 ^ 64 := by
    intro c _ hc
    norm_num
    omega
  refine ⟨e _ (by omega) (hb 1 (by decide) (by decide)), e _ (by omega) (hb 4 (by decide) (by decide)),
    e _ (by omega) (hb 5 (by decide) (by decide)), e _ (by omega) (hb 6 (by decide) (by decide)),
    e _ (by omega) (by norm_num; omega),
    toUInt64_ne_zero_of_odd_rem k 1 (by decide) (by decide) (by decide),
    toUInt64_ne_zero_of_odd_rem k 4 (by decide) (by decide) (by decide),
    toUInt64_ne_zero_of_odd_rem k 5 (by decide) (by decide) (by decide),
    toUInt64_ne_zero_of_odd_rem k 6 (by decide) (by decide) (by decide), ?_⟩
  intro n
  exact ⟨_, iteration_total k n⟩

theorem divisors_do_not_wrap_witness :
    (toUInt64 (8 * 2147483647 + 1) : Int) = 8 * 2147483647 + 1
      ∧ (toUInt64 (8 * 2147483647 + 4) : Int) = 8 * 2147483647 + 4
      ∧ (toUInt64 (8 * 2147483647 + 5) : Int) = 8 * 2147483647 + 5
      ∧ (toUInt64 (8 * 2147483647 + 6) : Int) = 8 * 2147483647 + 6
      ∧ (toUInt64 (4 * 2147483647) : Int) = 4 * 2147483647
      ∧ toUInt64 (8 * 2147483647 + 1) ≠ 0 ∧ toUInt64 (8 * 2147483647 + 4) ≠ 0
      ∧ toUInt64 (8 * 2147483647 + 5) ≠ 0 ∧ toUInt64 (8 * 2147483647 + 6) ≠ 0
      ∧ ∀ n : ℚ, ∃ n' : ℚ, iteration 2147483647 n = some n' :=
  divisors_do_not_wrap 2147483647 (by decide) (by decide)

/-- The digits produced for an operand in `[1, 3/2)` start with the digit 1. -/
theorem significand_head (b d : Nat) (u : ℚ) (hb : 2 ≤ b) (hd : 1 ≤ d)
    (h1 : 1 ≤ u) (h2 : u < 3 / 2) :
    significand b (d + 1) u
      = 1 :: ((lowDigits b d (keptValue b d u)).dropWhile (· = 0)).reverse := by
  obtain ⟨hlo, hle, hle1, hhi, hlt⟩ := keptValue_bounds b d u hb hd h1 h2
  have hpow : 2 ≤ b ^ d := le_trans hb (Nat.le_self_pow (by omega) b)
  rw [significand_unit b (d + 1) u hb h1 (by linarith), floor_pow_succ_div b d u hb]
  have hdw : (if b ≤ 2 * (⌊u * (b : ℚ) ^ (d + 1)⌋₊ % b)
        then roundUp b (lowDigits b (d + 1) ⌊u * (b : ℚ) ^ d⌋₊)
        else lowDigits b (d + 1) ⌊u * (b : ℚ) ^ d⌋₊).dropWhile (· = 0)
      = (lowDigits b (d + 1) (keptValue b d u)).dropWhile (· = 0) := by
    have hT1 : ⌊u * (b : ℚ) ^ d⌋₊ + 1 < b ^ (d + 1) := by
      rw [pow_succ]
      nlinarith
    by_cases hc : b ≤ 2 * (⌊u * (b : ℚ) ^ (d + 1)⌋₊ % b)
    · have hRe : keptValue b d u = ⌊u * (b : ℚ) ^ d⌋₊ + 1 := by
        unfold keptValue; rw [if_pos hc]
      rw [if_pos hc, roundUp_lowDigits b hb (d + 1) _ hT1, hRe]
    · have hRe : keptValue b d u = ⌊u * (b : ℚ) ^ d⌋₊ := by
        unfold keptValue; rw [if_neg hc]; rfl
      rw [if_neg hc, hRe]
  rw [hdw, lowDigits_succ_append]
  have htop : keptValue b d u / b ^ d % b = 1 := by
    have : keptValue b d u / b ^ d = 1 := by
      apply Nat.div_eq_of_lt_le
      · simpa using (by omega : b ^ d ≤ keptValue b d u)
      · simpa [two_mul, Nat.succ_mul] using (by omega : keptValue b d u < 2 * b ^ d)
    rw [this]
    exact Nat.mod_eq_of_lt (by omega)
  rw [htop, dropWhile_append_singleton _ 1 (by simp), List.reverse_append]
  rfl

theorem num_to_text_one (b : Nat) : (num_to_text b).getD 1 '?' = '1' := by
  unfold num_to_text
  split_ifs <;> rfl

theorem mpf_get_str_head (b d : Nat) (u : ℚ) (hb : 2 ≤ b) (hd : 1 ≤ d)
    (h1 : 1 ≤ u) (h2 : u < 3 / 2) : ∃ rest, mpf_get_str b (d + 1) u = '1' :: rest := by
  unfold mpf_get_str
  rw [if_neg (by linarith : u ≠ 0)]
  simp only [if_neg (by linarith : ¬ u < 0), abs_of_pos (by linarith : 0 < u),
    significand_head b d u hb hd h1 h2, List.map_cons, num_to_text_one]
  exact ⟨_, rfl⟩

/-- C12: for a term count `N ≥ 1` the value handed to the string conversion, the exact
sum of the first `N` terms less 2, lies in `[1, 2)`: its integer part is 1, and in
every base from 2 to 62 its digit string starts with the digit `1`, the character
the renderer overwrites with the radix marker. -/
theorem accumulator_integer_part (N : Nat) (hN : 1 ≤ N) :
    1 ≤ seriesSum N - 2 ∧ seriesSum N - 2 < 2 ∧ ⌊seriesSum N - 2⌋ = 1
      ∧ (∀ b d : Nat, 2 ≤ b → b ≤ 62 → 1 ≤ d →
          ∃ rest, mpf_get_str b (d + 1) (seriesSum N - 2) = '1' :: rest)
      ∧ (∀ digits BASE : Int, (N : Int) ≤ 2147483647 → 0 < digits → 2 ≤ BASE →
          ∃ visited line, compute (N : Int) digits BASE = some (seriesSum N - 2, visited, line)) := by
  have h1 := seriesSum_lower hN
  have h2 := seriesSum_upper hN
  have hlo : 1 ≤ seriesSum N - 2 := by linarith
  have hhi : seriesSum N - 2 < 3 / 2 := by linarith
  refine ⟨hlo, by linarith, ?_, ?_, ?_⟩
  · rw [Int.floor_eq_iff]
    constructor
    · exact_mod_cast hlo
    · push_cast; linarith
  · intro b d hb _ hd
    exact mpf_get_str_head b d _ hb hd hlo hhi
  · intro digits BASE hN2 hd hb
    obtain ⟨frac, hc⟩ := compute_total (N : Int) digits BASE (by norm_num; omega) hd hb
    rw [Int.toNat_ofNat] at hc
    exact ⟨_, _, hc⟩

theorem accumulator_integer_part_witness :
    1 ≤ seriesSum 1 - 2 ∧ seriesSum 1 - 2 < 2 ∧ ⌊seriesSum 1 - 2⌋ = 1
      ∧ (∀ b d : Nat, 2 ≤ b → b ≤ 62 → 1 ≤ d →
          ∃ rest, mpf_get_str b (d + 1) (seriesSum 1 - 2) = '1' :: rest)
      ∧ (∀ digits BASE : Int, ((1 : Nat) : Int) ≤ 2147483647 → 0 < digits → 2 ≤ BASE →
          ∃ visited line, compute ((1 : Nat) : Int) digits BASE
            = some (seriesSum 1 - 2, visited, line)) :=
  accumulator_integer_part 1 (by decide)

theorem bbp_hasDerivAt (y : ℝ) (h0 : 0 ≤ y) (h1 : y ≤ 1) :
    HasDerivAt (fun y : ℝ => 2 * Real.log (2 - y ^ 2) - 2 * Real.log (y ^ 2 - 2 * y + 2)
        + 4 * Real.arctan (y - 1))
      ((4 - 2 * y ^ 3 - y ^ 4 - y ^ 5) / (1 - y ^ 8 / 16)) y := by
  have hA : (2 - y ^ 2) ≠ 0 := by nlinarith
  have hB : (y ^ 2 - 2 * y + 2) ≠ 0 := by nlinarith [sq_nonneg (y - 1)]
  have hC : (1 + (y - 1) ^ 2) ≠ 0 := by positivity
  have hy8 : y ^ 8 ≤ 1 := pow_le_one₀ h0 h1
  have hD : (1 - y ^ 8 / 16) ≠ 0 := by linarith
  have hE : (16 - y ^ 8) ≠ 0 := by linarith
  have d1 : HasDerivAt (fun y : ℝ => 2 - y ^ 2) (-(2 * y)) y := by
    have := (hasDerivAt_pow 2 y).const_sub 2
    simpa using this
  have d2 : HasDerivAt (fun y : ℝ => y ^ 2 - 2 * y + 2) (2 * y - 2) y := by
    have := (((hasDerivAt_pow 2 y).sub ((hasDerivAt_id y).const_mul 2)).add_const 2)
    simpa using this
  have d3 : HasDerivAt (fun y : ℝ => y - 1) 1 y := (hasDerivAt_id y).sub_const 1
  have D := (((d1.log hA).const_mul 2).sub ((d2.log hB).const_mul 2)).add
    ((d3.arctan).const_mul 4)
  convert D using 1
  field_simp
  ring

theorem bbp_continuousOn (N : Nat) :
    ContinuousOn (fun y : ℝ => (4 - 2 * y ^ 3 - y ^ 4 - y ^ 5) * (y ^ 8 / 16) ^ N
      / (1 - y ^ 8 / 16)) (Set.uIcc (0 : ℝ) 1) := by
  apply ContinuousOn.div
  · exact Continuous.continuousOn (by continuity)
  · exact Continuous.continuousOn (by continuity)
  · intro y hy
    rw [Set.uIcc_of_le (by norm_num : (0 : ℝ) ≤ 1)] at hy
    have hy8 : y ^ 8 ≤ 1 := pow_le_one₀ hy.1 hy.2
    linarith

/-- The integral over `[0, 1]` behind the series: its value is π. -/
theorem bbp_integral :
    ∫ y in (0 : ℝ)..1, (4 - 2 * y ^ 3 - y ^ 4 - y ^ 5) / (1 - y ^ 8 / 16) = Real.pi := by
  have hcont := bbp_continuousOn 0
  simp only [pow_zero, mul_one] at hcont
  rw [intervalIntegral.integral_eq_sub_of_hasDerivAt
    (f := fun y : ℝ => 2 * Real.log (2 - y ^ 2) - 2 * Real.log (y ^ 2 - 2 * y + 2)
        + 4 * Real.arctan (y - 1))
    (fun y hy => by
      rw [Set.uIcc_of_le (by norm_num : (0 : ℝ) ≤ 1)] at hy
      exact bbp_hasDerivAt y hy.1 hy.2)
    hcont.intervalIntegrable]
  have e : Real.arctan (0 - 1) = -(Real.pi / 4) := by
    rw [zero_sub, Real.arctan_neg, Real.arctan_one]
  simp only [e]
  norm_num
  ring

/-- The integral of one term of the series. -/
theorem bbp_term_integral (N : Nat) :
    ∫ y in (0 : ℝ)..1, (4 - 2 * y ^ 3 - y ^ 4 - y ^ 5) * (y ^ 8 / 16) ^ N
      = ((bracket N / 16 ^ N : ℚ) : ℝ) := by
  have hi : ∀ n : Nat, IntervalIntegrable (fun y : ℝ => y ^ n) MeasureTheory.volume 0 1 :=
    fun n => (continuous_pow n).intervalIntegrable _ _
  have e : ∀ y : ℝ, (4 - 2 * y ^ 3 - y ^ 4 - y ^ 5) * (y ^ 8 / 16) ^ N
      = (1 / 16 ^ N) * (4 * y ^ (8 * N) - 2 * y ^ (8 * N + 3) - y ^ (8 * N + 4)
          - y ^ (8 * N + 5)) := by
    intro y
    rw [div_pow, ← pow_mul]
    field_simp
    ring
  simp_rw [e]
  rw [intervalIntegral.integral_const_mul,
    intervalIntegral.integral_sub (((hi _).const_mul 4).sub ((hi _).const_mul 2) |>.sub (hi _))
      (hi _),
    intervalIntegral.integral_sub (((hi _).const_mul 4).sub ((hi _).const_mul 2)) (hi _),
    intervalIntegral.integral_sub ((hi _).const_mul 4) ((hi _).const_mul 2),
    intervalIntegral.integral_const_mul, intervalIntegral.integral_const_mul]
  simp only [integral_pow]
  unfold bracket
  push_cast
  field_simp
  ring

/-- The sum of the first `N` terms is π less the integral of the remainder. -/
theorem seriesSum_eq_pi_sub (N : Nat) :
    ((seriesSum N : ℚ) : ℝ) = Real.pi
      - ∫ y in (0 : ℝ)..1, (4 - 2 * y ^ 3 - y ^ 4 - y ^ 5) * (y ^ 8 / 16) ^ N
          / (1 - y ^ 8 / 16) := by
  induction N with
  | zero =>
    have := bbp_integral
    simp only [pow_zero, mul_one]
    rw [this]
    simp [seriesSum]
  | succ n ih =>
    rw [seriesSum_succ]
    push_cast at ih ⊢
    rw [ih]
    have ht := bbp_term_integral n
    push_cast at ht
    have hsub : (∫ y in (0 : ℝ)..1, (4 - 2 * y ^ 3 - y ^ 4 - y ^ 5) * (y ^ 8 / 16) ^ n
          / (1 - y ^ 8 / 16))
        - (∫ y in (0 : ℝ)..1, (4 - 2 * y ^ 3 - y ^ 4 - y ^ 5) * (y ^ 8 / 16) ^ (n + 1)
          / (1 - y ^ 8 / 16))
        = ∫ y in (0 : ℝ)..1, (4 - 2 * y ^ 3 - y ^ 4 - y ^ 5) * (y ^ 8 / 16) ^ n := by
      rw [← intervalIntegral.integral_sub (bbp_continuousOn n).intervalIntegrable
        (bbp_continuousOn (n + 1)).intervalIntegrable]
      apply intervalIntegral.integral_congr
      intro y hy
      rw [Set.uIcc_of_le (by norm_num : (0 : ℝ) ≤ 1)] at hy
      have hy8 : y ^ 8 ≤ 1 := pow_le_one₀ hy.1 hy.2
      have hD : (1 - y ^ 8 / 16) ≠ 0 := by linarith
      have hE : (16 - y ^ 8) ≠ 0 := by linarith
      simp only
      rw [pow_succ]
      field_simp
      ring
    rw [← ht] at *
    linarith

/-- The remainder integral lies between 0 and `5 / 16^N`. -/
theorem bbp_remainder_bounds (N : Nat) :
    0 ≤ ∫ y in (0 : ℝ)..1, (4 - 2 * y ^ 3 - y ^ 4 - y ^ 5) * (y ^ 8 / 16) ^ N
          / (1 - y ^ 8 / 16)
      ∧ (∫ y in (0 : ℝ)..1, (4 - 2 * y ^ 3 - y ^ 4 - y ^ 5) * (y ^ 8 / 16) ^ N
          / (1 - y ^ 8 / 16)) ≤ 5 / 16 ^ N := by
  have key : ∀ y ∈ Set.Icc (0 : ℝ) 1,
      0 ≤ (4 - 2 * y ^ 3 - y ^ 4 - y ^ 5) * (y ^ 8 / 16) ^ N / (1 - y ^ 8 / 16)
        ∧ (4 - 2 * y ^ 3 - y ^ 4 - y ^ 5) * (y ^ 8 / 16) ^ N / (1 - y ^ 8 / 16) ≤ 5 / 16 ^ N := by
    intro y hy
    have h0 := hy.1
    have h1 := hy.2
    have hy8 : y ^ 8 ≤ 1 := pow_le_one₀ h0 h1
    have hy8' : 0 ≤ y ^ 8 := by positivity
    have hq0 : 0 ≤ 4 - 2 * y ^ 3 - y ^ 4 - y ^ 5 := by
      have e : 4 - 2 * y ^ 3 - y ^ 4 - y ^ 5 = (1 - y) * (y ^ 2 + 2) * (y ^ 2 + 2 * y + 2) := by
        ring
      rw [e]
      have : 0 ≤ 1 - y := by linarith
      positivity
    have hq4 : 4 - 2 * y ^ 3 - y ^ 4 - y ^ 5 ≤ 4 := by
      have : 0 ≤ 2 * y ^ 3 + y ^ 4 + y ^ 5 := by positivity
      linarith
    have hr0 : 0 ≤ (y ^ 8 / 16) ^ N := by positivity
    have hr1 : (y ^ 8 / 16) ^ N ≤ 1 / 16 ^ N := by
      rw [div_pow]
      apply div_le_div_of_nonneg_right _ (by positivity)
      exact pow_le_one₀ hy8' hy8
    have hden : 15 / 16 ≤ 1 - y ^ 8 / 16 := by linarith
    have hdpos : 0 < 1 - y ^ 8 / 16 := by linarith
    constructor
    · positivity
    · rw [div_le_iff₀ hdpos]
      have hp : (0 : ℝ) < 1 / 16 ^ N := by positivity
      have h5 : (5 : ℝ) / 16 ^ N = 5 * (1 / 16 ^ N) := by ring
      rw [h5]
      nlinarith [mul_le_mul hq4 hr1 hr0 (by norm_num : (0 : ℝ) ≤ 4)]
  constructor
  · apply intervalIntegral.integral_nonneg (by norm_num)
    intro y hy
    exact (key y hy).1
  · have hc : IntervalIntegrable (fun _ : ℝ => (5 : ℝ) / 16 ^ N) MeasureTheory.volume 0 1 :=
      intervalIntegrable_const
    have hmono := intervalIntegral.integral_mono_on (by norm_num : (0 : ℝ) ≤ 1)
      (bbp_continuousOn N).intervalIntegrable hc (fun y hy => (key y hy).2)
    simpa using hmono

/-- The exact sums stay below π and come within `5 / 16^N` of it. -/
theorem seriesSum_pi_bounds (N : Nat) :
    ((seriesSum N : ℚ) : ℝ) ≤ Real.pi ∧ Real.pi - 5 / 16 ^ N ≤ ((seriesSum N : ℚ) : ℝ) := by
  obtain ⟨h0, h1⟩ := bbp_remainder_bounds N
  rw [seriesSum_eq_pi_sub N]
  constructor <;> linarith

theorem seriesSum_tendsto_pi :
    Filter.Tendsto (fun N : Nat => ((seriesSum N : ℚ) : ℝ)) Filter.atTop (nhds Real.pi) := by
  have hlim : Filter.Tendsto (fun N : Nat => Real.pi - 5 / (16 : ℝ) ^ N) Filter.atTop
      (nhds Real.pi) := by
    have h16 : Filter.Tendsto (fun N : Nat => (5 : ℝ) / 16 ^ N) Filter.atTop (nhds 0) := by
      have := tendsto_pow_atTop_nhds_zero_of_lt_one (by norm_num : (0 : ℝ) ≤ 1 / 16)
        (by norm_num : (1 : ℝ) / 16 < 1)
      have h5 := this.const_mul 5
      simp only [mul_zero] at h5
      refine h5.congr (fun N => ?_)
      rw [one_div, inv_pow]
      ring
    simpa using tendsto_const_nhds.sub h16
  exact tendsto_of_tendsto_of_tendsto_of_le_of_le hlim tendsto_const_nhds
    (fun N => (seriesSum_pi_bounds N).2) (fun N => (seriesSum_pi_bounds N).1)

theorem series_hasSum_pi :
    HasSum (fun k : Nat => ((bracket k / 16 ^ k : ℚ) : ℝ)) Real.pi := by
  rw [hasSum_iff_tendsto_nat_of_nonneg]
  · refine seriesSum_tendsto_pi.congr (fun N => ?_)
    simp [seriesSum]
  · intro k
    have : (0 : ℚ) ≤ bracket k / 16 ^ k := (div_pos (bracket_pos k) (by positivity)).le
    exact_mod_cast this

/-- C11 as the code has it: the series the accumulator sums converges to π; it is the
value after the subtraction `n -= 2` that converges to π - 2. -/
theorem series_converges_to_pi :
    HasSum (fun k : Nat => ((bracket k / 16 ^ k : ℚ) : ℝ)) Real.pi
      ∧ Filter.Tendsto (fun N : Nat => ((seriesSum N : ℚ) : ℝ)) Filter.atTop (nhds Real.pi)
      ∧ Filter.Tendsto (fun N : Nat => ((mpf_sub_ui (seriesSum N) 2 : ℚ) : ℝ)) Filter.atTop
          (nhds (Real.pi - 2)) := by
  refine ⟨series_hasSum_pi, seriesSum_tendsto_pi, ?_⟩
  have h := seriesSum_tendsto_pi.sub_const 2
  refine h.congr (fun N => ?_)
  simp [mpf_sub_ui]

/-- C11 as stated fails: the series the accumulator sums does not converge to π - 2. -/
theorem series_not_converges_to_pi_sub_two :
    ¬ HasSum (fun k : Nat => ((bracket k / 16 ^ k : ℚ) : ℝ)) (Real.pi - 2) := by
  intro h
  have := h.unique series_hasSum_pi
  linarith

/-- The whole tail of the series after `N ≥ 1` terms is at most half of `1 / 16^N`. -/
theorem pi_sub_seriesSum_le (N : Nat) (hN : 1 ≤ N) :
    Real.pi - ((seriesSum N : ℚ) : ℝ) ≤ 1 / 2 / (16 : ℝ) ^ N := by
  have hb : ∀ M : Nat, ((seriesSum M : ℚ) : ℝ) ≤ ((seriesSum N : ℚ) : ℝ) + 1 / 2 / (16 : ℝ) ^ N := by
    intro M
    have hq : seriesSum M ≤ seriesSum N + 1 / 2 / (16 : ℚ) ^ N := by
      have hpN : (0 : ℚ) < 1 / 2 / (16 : ℚ) ^ N := by positivity
      rcases Nat.le_total N M with h | h
      · have := seriesSum_tail hN h
        have hpM : (0 : ℚ) < 1 / 2 / 16 ^ M := by positivity
        linarith
      · have := seriesSum_mono h
        linarith
    have hr : ((seriesSum M : ℚ) : ℝ) ≤ ((seriesSum N + 1 / 2 / (16 : ℚ) ^ N : ℚ) : ℝ) :=
      Rat.cast_le.mpr hq
    push_cast at hr
    exact hr
  have := le_of_tendsto' seriesSum_tendsto_pi hb
  linarith

theorem seriesSum_lt_pi (N : Nat) : ((seriesSum N : ℚ) : ℝ) < Real.pi := by
  have h1 : ((seriesSum N : ℚ) : ℝ) < ((seriesSum (N + 1) : ℚ) : ℝ) := by
    exact_mod_cast seriesSum_lt_succ N
  exact lt_of_lt_of_le h1 (seriesSum_pi_bounds (N + 1)).1

/-! ## Rounding to `double` -/

/-- The rounding of `x` is an integer multiple `g` of the spacing at `x`, with `g` the
floor of the quotient or its successor, at distance at most one half from it. -/
theorem rnd_spec (x : ℝ) :
    ∃ g : ℤ, rnd x = (g : ℝ) * 2 ^ (Int.log 2 |x| - 52)
      ∧ (⌊x / 2 ^ (Int.log 2 |x| - 52)⌋ ≤ g)
      ∧ (g ≤ ⌊x / 2 ^ (Int.log 2 |x| - 52)⌋ + 1)
      ∧ |(g : ℝ) - x / 2 ^ (Int.log 2 |x| - 52)| ≤ 1 / 2 := by
  unfold rnd
  have h1 := Int.floor_le (x / 2 ^ (Int.log 2 |x| - 52))
  have h2 := Int.lt_floor_add_one (x / 2 ^ (Int.log 2 |x| - 52))
  set m := x / (2 : ℝ) ^ (Int.log 2 |x| - 52)
  set f := ⌊m⌋
  split_ifs with c1 c2 c3
  · exact ⟨f, rfl, le_refl _, by omega, by rw [abs_le]; constructor <;> linarith⟩
  · exact ⟨f + 1, by push_cast; rfl, by omega, le_refl _, by
      rw [abs_le]; push_cast; constructor <;> linarith⟩
  · exact ⟨f, rfl, le_refl _, by omega, by rw [abs_le]; constructor <;> linarith⟩
  · exact ⟨f + 1, by push_cast; rfl, by omega, le_refl _, by
      rw [abs_le]; push_cast; constructor <;> linarith⟩

theorem two_zpow_log_le (x : ℝ) (hx : 0 < x) : (2 : ℝ) ^ Int.log 2 |x| ≤ x := by
  have := Int.zpow_log_le_self (b := 2) (r := x) (by norm_num) hx
  rw [abs_of_pos hx]
  simpa using this

theorem lt_two_zpow_log_succ (x : ℝ) (hx : 0 < x) : x < (2 : ℝ) ^ (Int.log 2 |x| + 1) := by
  have := Int.lt_zpow_succ_log_self (b := 2) (by norm_num) x
  rw [abs_of_pos hx]
  simpa using this

theorem int_log_two_eq (x : ℝ) (j : ℤ) (h1 : (2 : ℝ) ^ j ≤ x) (h2 : x < (2 : ℝ) ^ (j + 1)) :
    Int.log 2 |x| = j := by
  have hx : 0 < x := lt_of_lt_of_le (by positivity) h1
  rw [abs_of_pos hx]
  apply le_antisymm
  · have := (Int.lt_zpow_iff_log_lt (b := 2) (by norm_num) hx (x := j + 1)).mp (by simpa using h2)
    omega
  · exact (Int.zpow_le_iff_le_log (b := 2) (by norm_num) hx).mp (by simpa using h1)

/-- The relative error of a rounding is at most `2^-53`. -/
theorem rnd_rel_error (x : ℝ) (hx : 0 ≤ x) :
    x * (1 - 1 / 2 ^ 53) ≤ rnd x ∧ rnd x * (1 - 1 / 2 ^ 53) ≤ x := by
  rcases hx.eq_or_lt with h0 | hpos
  · subst h0
    have : rnd 0 = 0 := by simp [rnd]
    rw [this]
    simp
  · obtain ⟨g, hg, _, _, hd⟩ := rnd_spec x
    have hp : (0 : ℝ) < 2 ^ (Int.log 2 |x| - 52) := by positivity
    have hle := two_zpow_log_le x hpos
    have hsplit : (2 : ℝ) ^ (Int.log 2 |x| - 52) = 2 ^ Int.log 2 |x| / 2 ^ 52 := by
      rw [zpow_sub₀ (by norm_num : (2 : ℝ) ≠ 0)]
      norm_num
    set p := (2 : ℝ) ^ (Int.log 2 |x| - 52) with hpdef
    have hxm : x = x / p * p := by field_simp
    have hdiff : |rnd x - x| ≤ p / 2 := by
      rw [hg]
      have : (g : ℝ) * p - x = ((g : ℝ) - x / p) * p := by
        conv_lhs => rw [hxm]
        field_simp
      rw [this, abs_mul, abs_of_pos hp]
      nlinarith [abs_nonneg ((g : ℝ) - x / p)]
    have hpx : p ≤ x / 2 ^ 52 := by
      rw [hsplit]
      exact div_le_div_of_nonneg_right hle (by positivity)
    obtain ⟨ha, hb⟩ := abs_le.mp hdiff
    have hx53 : x / 2 ^ 52 / 2 = x * (1 / 2 ^ 53) := by ring
    constructor
    · nlinarith
    · have : rnd x ≤ x * (1 + 1 / 2 ^ 53) := by nlinarith
      have hq : (1 + (1 : ℝ) / 2 ^ 53) * (1 - 1 / 2 ^ 53) ≤ 1 := by norm_num
      have hq0 : (0 : ℝ) ≤ 1 - 1 / 2 ^ 53 := by norm_num
      calc rnd x * (1 - 1 / 2 ^ 53) ≤ x * (1 + 1 / 2 ^ 53) * (1 - 1 / 2 ^ 53) :=
            mul_le_mul_of_nonneg_right this hq0
        _ = x * ((1 + 1 / 2 ^ 53) * (1 - 1 / 2 ^ 53)) := by ring
        _ ≤ x * 1 := mul_le_mul_of_nonneg_left hq hpos.le
        _ = x := mul_one x

theorem rnd_nonneg (x : ℝ) (hx : 0 ≤ x) : 0 ≤ rnd x := by
  have := (rnd_rel_error x hx).1
  have hq0 : (0 : ℝ) ≤ 1 - 1 / 2 ^ 53 := by norm_num
  nlinarith

/-- A rounding is not below a `double` that its argument is not below: for the double
`k * 2^(j - 52)` with `2^52 ≤ k < 2^53`. -/
theorem le_rnd_of_double_le (x : ℝ) (j k : ℤ) (hk1 : 2 ^ 52 ≤ k) (hk2 : k < 2 ^ 53)
    (h : (k : ℝ) * 2 ^ (j - 52) ≤ x) : (k : ℝ) * 2 ^ (j - 52) ≤ rnd x := by
  have hk1' : (2 : ℝ) ^ 52 ≤ (k : ℝ) := by exact_mod_cast hk1
  have hk2' : (k : ℝ) < 2 ^ 53 := by exact_mod_cast hk2
  have hpj : (0 : ℝ) < 2 ^ (j - 52) := by positivity
  have hj : (2 : ℝ) ^ j = 2 ^ 52 * 2 ^ (j - 52) := by
    rw [zpow_sub₀ (by norm_num : (2 : ℝ) ≠ 0)]
    field_simp
    ring
  have hx2j : (2 : ℝ) ^ j ≤ x := by
    rw [hj]
    nlinarith
  have hx : 0 < x := lt_of_lt_of_le (by positivity) hx2j
  have hej : j ≤ Int.log 2 |x| := by
    rw [abs_of_pos hx]
    exact (Int.zpow_le_iff_le_log (b := 2) (by norm_num) hx).mp (by simpa using hx2j)
  obtain ⟨g, hg, hfg, _, _⟩ := rnd_spec x
  have hp : (0 : ℝ) < 2 ^ (Int.log 2 |x| - 52) := by positivity
  rw [hg]
  rcases hej.eq_or_lt with he | he
  · rw [← he]
    have hkm : (k : ℝ) ≤ x / 2 ^ (j - 52) := by
      rw [le_div_iff₀ hpj]
      exact h
    have hkf : k ≤ ⌊x / (2 : ℝ) ^ (j - 52)⌋ := Int.le_floor.mpr hkm
    rw [← he] at hfg
    have : (k : ℝ) ≤ (g : ℝ) := by exact_mod_cast le_trans hkf hfg
    exact mul_le_mul_of_nonneg_right this hpj.le
  · have hle := two_zpow_log_le x hx
    have hm : (2 : ℝ) ^ 52 ≤ x / 2 ^ (Int.log 2 |x| - 52) := by
      rw [le_div_iff₀ hp, zpow_sub₀ (by norm_num : (2 : ℝ) ≠ 0)]
      have : (2 : ℝ) ^ 52 * (2 ^ Int.log 2 |x| / 2 ^ (52 : ℤ)) = 2 ^ Int.log 2 |x| := by
        field_simp
        ring
      rw [this]
      exact hle
    have hf : (2 : ℤ) ^ 52 ≤ ⌊x / (2 : ℝ) ^ (Int.log 2 |x| - 52)⌋ :=
      Int.le_floor.mpr (by norm_num at hm ⊢; exact hm)
    have hg52 : (2 : ℝ) ^ 52 ≤ (g : ℝ) := by exact_mod_cast le_trans hf hfg
    have hstep : (2 : ℝ) ^ (j - 52) * 2 ≤ 2 ^ (Int.log 2 |x| - 52) := by
      have : (2 : ℝ) ^ (j - 52) * 2 = 2 ^ (j - 52 + 1) := by
        rw [zpow_add₀ (by norm_num : (2 : ℝ) ≠ 0)]
        norm_num
      rw [this]
      exact zpow_le_zpow_right₀ (by norm_num) (by omega)
    calc (k : ℝ) * 2 ^ (j - 52) ≤ 2 ^ 53 * 2 ^ (j - 52) :=
          mul_le_mul_of_nonneg_right hk2'.le hpj.le
      _ = 2 ^ 52 * (2 ^ (j - 52) * 2) := by ring
      _ ≤ 2 ^ 52 * 2 ^ (Int.log 2 |x| - 52) := mul_le_mul_of_nonneg_left hstep (by positivity)
      _ ≤ (g : ℝ) * 2 ^ (Int.log 2 |x| - 52) := mul_le_mul_of_nonneg_right hg52 hp.le

/-- A real within half a spacing of a `double` of its own binade rounds to it. -/
theorem rnd_eq_of_near (x : ℝ) (j k : ℤ) (h1 : (2 : ℝ) ^ j ≤ x) (h2 : x < (2 : ℝ) ^ (j + 1))
    (h : |x - (k : ℝ) * 2 ^ (j - 52)| < 2 ^ (j - 52) / 2) :
    rnd x = (k : ℝ) * 2 ^ (j - 52) := by
  have he := int_log_two_eq x j h1 h2
  obtain ⟨g, hg, hfg, hgf, hd⟩ := rnd_spec x
  rw [he] at hg hfg hgf hd
  have hp : (0 : ℝ) < 2 ^ (j - 52) := by positivity
  set p := (2 : ℝ) ^ (j - 52)
  have hxm : x = x / p * p := by field_simp
  have hkm : |x / p - (k : ℝ)| < 1 / 2 := by
    have : x - (k : ℝ) * p = (x / p - k) * p := by
      conv_lhs => rw [hxm]
      ring
    rw [this, abs_mul, abs_of_pos hp] at h
    have : |x / p - (k : ℝ)| * p < 1 / 2 * p := by linarith
    exact lt_of_mul_lt_mul_right this hp.le
  have hgk : g = k := by
    obtain ⟨a1, a2⟩ := abs_lt.mp hkm
    obtain ⟨b1, b2⟩ := abs_le.mp hd
    have hlt1 : ((g : ℝ) - k) < 1 := by linarith
    have hlt2 : (-1 : ℝ) < (g : ℝ) - k := by linarith
    have h3 : g - k < 1 := by exact_mod_cast hlt1
    have h4 : -1 < g - k := by exact_mod_cast hlt2
    omega
  rw [hg, hgk]

/-! ## Error of the `double` plan -/

theorem near_refl (a : ℝ) : Near 0 a a := by
  unfold Near
  simp

theorem near_nonneg {k : Nat} {a A : ℝ} (hA : 0 ≤ A) (h : Near k a A) : 0 ≤ a := by
  have hq : (0 : ℝ) ≤ (1 - 1 / 2 ^ 53) ^ k := pow_nonneg (by norm_num) k
  exact le_trans (mul_nonneg hA hq) h.1

theorem near_pos {k : Nat} {a A : ℝ} (hA : 0 < A) (h : Near k a A) : 0 < a := by
  have hq : (0 : ℝ) < (1 - 1 / 2 ^ 53) ^ k := pow_pos (by norm_num) k
  exact lt_of_lt_of_le (mul_pos hA hq) h.1

theorem near_rnd {k : Nat} {a A : ℝ} (hA : 0 ≤ A) (h : Near k a A) : Near (k + 1) (rnd a) A := by
  have ha := near_nonneg hA h
  obtain ⟨r1, r2⟩ := rnd_rel_error a ha
  have hq0 : (0 : ℝ) ≤ 1 - 1 / 2 ^ 53 := by norm_num
  have hq : (0 : ℝ) ≤ (1 - 1 / 2 ^ 53) ^ k := pow_nonneg hq0 k
  constructor
  · calc A * (1 - 1 / 2 ^ 53) ^ (k + 1) = A * (1 - 1 / 2 ^ 53) ^ k * (1 - 1 / 2 ^ 53) := by ring
      _ ≤ a * (1 - 1 / 2 ^ 53) := mul_le_mul_of_nonneg_right h.1 hq0
      _ ≤ rnd a := r1
  · calc rnd a * (1 - 1 / 2 ^ 53) ^ (k + 1) = rnd a * (1 - 1 / 2 ^ 53) * (1 - 1 / 2 ^ 53) ^ k := by
          ring
      _ ≤ a * (1 - 1 / 2 ^ 53) ^ k := mul_le_mul_of_nonneg_right r2 hq
      _ ≤ A := h.2

theorem near_mul {k m : Nat} {a A b B : ℝ} (hA : 0 ≤ A) (hB : 0 ≤ B) (h : Near k a A)
    (h' : Near m b B) : Near (k + m) (a * b) (A * B) := by
  have ha := near_nonneg hA h
  have hb := near_nonneg hB h'
  have hq0 : (0 : ℝ) ≤ 1 - 1 / 2 ^ 53 := by norm_num
  have hqk : (0 : ℝ) ≤ (1 - 1 / 2 ^ 53) ^ k := pow_nonneg hq0 k
  have hqm : (0 : ℝ) ≤ (1 - 1 / 2 ^ 53) ^ m := pow_nonneg hq0 m
  constructor
  · calc A * B * (1 - 1 / 2 ^ 53) ^ (k + m)
        = (A * (1 - 1 / 2 ^ 53) ^ k) * (B * (1 - 1 / 2 ^ 53) ^ m) := by rw [pow_add]; ring
      _ ≤ a * b := mul_le_mul h.1 h'.1 (mul_nonneg hB hqm) ha
  · calc a * b * (1 - 1 / 2 ^ 53) ^ (k + m)
        = (a * (1 - 1 / 2 ^ 53) ^ k) * (b * (1 - 1 / 2 ^ 53) ^ m) := by rw [pow_add]; ring
      _ ≤ A * B := mul_le_mul h.2 h'.2 (mul_nonneg hb hqm) hA

theorem near_div {k m : Nat} {a A b B : ℝ} (hA : 0 ≤ A) (hB : 0 < B) (h : Near k a A)
    (h' : Near m b B) : Near (k + m) (a / b) (A / B) := by
  have ha := near_nonneg hA h
  have hb := near_pos hB h'
  have hq0 : (0 : ℝ) ≤ 1 - 1 / 2 ^ 53 := by norm_num
  have hqk : (0 : ℝ) ≤ (1 - 1 / 2 ^ 53) ^ k := pow_nonneg hq0 k
  have hqm : (0 : ℝ) ≤ (1 - 1 / 2 ^ 53) ^ m := pow_nonneg hq0 m
  constructor
  · rw [le_div_iff₀ hb, div_mul_eq_mul_div, div_mul_eq_mul_div, div_le_iff₀ hB]
    calc A * (1 - 1 / 2 ^ 53) ^ (k + m) * b
        = (A * (1 - 1 / 2 ^ 53) ^ k) * (b * (1 - 1 / 2 ^ 53) ^ m) := by rw [pow_add]; ring
      _ ≤ a * B := mul_le_mul h.1 h'.2 (mul_nonneg hb.le hqm) ha
  · rw [div_mul_eq_mul_div, div_le_div_iff₀ hb hB]
    calc a * (1 - 1 / 2 ^ 53) ^ (k + m) * B
        = (a * (1 - 1 / 2 ^ 53) ^ k) * (B * (1 - 1 / 2 ^ 53) ^ m) := by rw [pow_add]; ring
      _ ≤ A * b := mul_le_mul h.2 h'.1 (mul_nonneg hB.le hqm) hA

theorem near_add_const {k : Nat} {a A : ℝ} (c : ℝ) (hc : 0 ≤ c) (hA : 0 ≤ A) (h : Near k a A) :
    Near k (a + c) (A + c) := by
  have ha := near_nonneg hA h
  have hq0 : (0 : ℝ) ≤ 1 - 1 / 2 ^ 53 := by norm_num
  have hq1 : (1 - 1 / 2 ^ 53 : ℝ) ≤ 1 := by norm_num
  have hqk : (0 : ℝ) ≤ (1 - 1 / 2 ^ 53) ^ k := pow_nonneg hq0 k
  have hqk1 : (1 - 1 / 2 ^ 53 : ℝ) ^ k ≤ 1 := pow_le_one₀ hq0 hq1
  constructor
  · have : c * (1 - 1 / 2 ^ 53) ^ k ≤ c := by nlinarith
    nlinarith [h.1]
  · have : c * (1 - 1 / 2 ^ 53) ^ k ≤ c := by nlinarith
    nlinarith [h.2]

theorem near_mono {k m : Nat} {a A : ℝ} (hkm : k ≤ m) (hA : 0 ≤ A) (h : Near k a A) :
    Near m a A := by
  have ha := near_nonneg hA h
  have hq0 : (0 : ℝ) ≤ 1 - 1 / 2 ^ 53 := by norm_num
  have hq1 : (1 - 1 / 2 ^ 53 : ℝ) ≤ 1 := by norm_num
  have hle : (1 - 1 / 2 ^ 53 : ℝ) ^ m ≤ (1 - 1 / 2 ^ 53) ^ k :=
    pow_le_pow_of_le_one hq0 hq1 hkm
  constructor
  · exact le_trans (mul_le_mul_of_nonneg_left hle hA) h.1
  · exact le_trans (mul_le_mul_of_nonneg_left hle ha) h.2

/-- After at most eight roundings the value is within a relative `2^-49` of the exact one. -/
theorem near_bounds {k : Nat} {a A : ℝ} (hk : k ≤ 8) (hA : 0 ≤ A) (h : Near k a A) :
    A * (1 - 1 / 2 ^ 49) ≤ a ∧ a ≤ A * (1 + 1 / 2 ^ 49) := by
  obtain ⟨h1, h2⟩ := near_mono hk hA h
  have ha := near_nonneg hA h
  have e1 : (1 - 1 / 2 ^ 49 : ℝ) ≤ (1 - 1 / 2 ^ 53) ^ 8 := by norm_num
  have e2 : (1 : ℝ) ≤ (1 + 1 / 2 ^ 49) * (1 - 1 / 2 ^ 53) ^ 8 := by norm_num
  constructor
  · exact le_trans (mul_le_mul_of_nonneg_left e1 hA) h1
  · have hq : (0 : ℝ) < (1 - 1 / 2 ^ 53) ^ 8 := by norm_num
    have : a * (1 - 1 / 2 ^ 53) ^ 8 ≤ A * (1 + 1 / 2 ^ 49) * (1 - 1 / 2 ^ 53) ^ 8 := by
      calc a * (1 - 1 / 2 ^ 53) ^ 8 ≤ A := h2
        _ = A * 1 := (mul_one A).symm
        _ ≤ A * ((1 + 1 / 2 ^ 49) * (1 - 1 / 2 ^ 53) ^ 8) := mul_le_mul_of_nonneg_left e2 hA
        _ = A * (1 + 1 / 2 ^ 49) * (1 - 1 / 2 ^ 53) ^ 8 := by ring
    exact le_of_mul_le_mul_right this hq

theorem logd_near (x : ℝ) (hx : 1 ≤ x) : Near 1 (logd x) (Real.log x) :=
  near_rnd (Real.log_nonneg hx) (near_refl _)

/-- The `double` value behind the term count approximates the real expression of line
125, and the term count is its floor. -/
theorem steps_spec (d b : Int) (hd : 0 ≤ d) (hb : 1 ≤ b) :
    ∃ v : ℝ, steps d b = ⌊v⌋ ∧ 0 ≤ v
      ∧ Near 8 v (((d : ℝ) * (Real.log b / Real.log 2) / 4 + 10) * 1.0001) := by
  have hd' : (0 : ℝ) ≤ d := by exact_mod_cast hd
  have hb' : (1 : ℝ) ≤ b := by exact_mod_cast hb
  have hlb : 0 ≤ Real.log (b : ℝ) := Real.log_nonneg hb'
  have hl2 : 0 < Real.log 2 := Real.log_pos (by norm_num)
  have n1 : Near 2 (rnd ((d : ℝ) * logd (b : ℝ))) ((d : ℝ) * Real.log b) := by
    have := near_mul hd' hlb (near_refl (d : ℝ)) (logd_near _ hb')
    exact near_rnd (mul_nonneg hd' hlb) this
  have n2 : Near 2 (rnd (4 * logd 2)) (4 * Real.log 2) := by
    have := near_mul (by norm_num : (0 : ℝ) ≤ 4) hl2.le (near_refl (4 : ℝ))
      (logd_near 2 (by norm_num))
    exact near_rnd (by positivity) this
  have n3 := near_rnd (div_nonneg (mul_nonneg hd' hlb) (by positivity))
    (near_div (mul_nonneg hd' hlb) (by positivity) n1 n2)
  have hA3 : 0 ≤ (d : ℝ) * Real.log b / (4 * Real.log 2) :=
    div_nonneg (mul_nonneg hd' hlb) (by positivity)
  have n4 := near_rnd (by positivity) (near_add_const 10 (by norm_num) hA3 n3)
  have nc : Near 1 (rnd 1.0001) 1.0001 := near_rnd (by norm_num) (near_refl _)
  have n5 := near_rnd (by positivity)
    (near_mul (by positivity) (by norm_num : (0 : ℝ) ≤ 1.0001) n4 nc)
  have hX : ((d : ℝ) * Real.log b / (4 * Real.log 2) + 10) * 1.0001
      = ((d : ℝ) * (Real.log b / Real.log 2) / 4 + 10) * 1.0001 := by
    field_simp
    ring
  rw [hX] at n5
  have hv := near_nonneg (by positivity) n5
  exact ⟨_, truncate_of_nonneg _ hv, hv, n5⟩

/-- The `double` value behind the precision approximates the real expression of line
129, and the precision is its floor. -/
theorem default_prec_spec (d b : Int) (hd : 0 ≤ d) (hb : 1 ≤ b) :
    ∃ v : ℝ, default_prec d b = ⌊v⌋ ∧ 0 ≤ v
      ∧ Near 8 v ((d : ℝ) * (Real.log b / Real.log 2) + 10) := by
  have hd' : (0 : ℝ) ≤ d := by exact_mod_cast hd
  have hb' : (1 : ℝ) ≤ b := by exact_mod_cast hb
  have hlb : 0 ≤ Real.log (b : ℝ) := Real.log_nonneg hb'
  have hl2 : 0 < Real.log 2 := Real.log_pos (by norm_num)
  have n1 : Near 2 (rnd ((d : ℝ) * logd (b : ℝ))) ((d : ℝ) * Real.log b) := by
    have := near_mul hd' hlb (near_refl (d : ℝ)) (logd_near _ hb')
    exact near_rnd (mul_nonneg hd' hlb) this
  have n3 := near_rnd (div_nonneg (mul_nonneg hd' hlb) hl2.le)
    (near_div (mul_nonneg hd' hlb) hl2 n1 (logd_near 2 (by norm_num)))
  have hA3 : 0 ≤ (d : ℝ) * Real.log b / Real.log 2 := div_nonneg (mul_nonneg hd' hlb) hl2.le
  have n4 := near_rnd (by positivity) (near_add_const 10 (by norm_num) hA3 n3)
  have hX : (d : ℝ) * Real.log b / Real.log 2 + 10
      = (d : ℝ) * (Real.log b / Real.log 2) + 10 := by ring
  rw [hX] at n4
  have hA : 0 ≤ (d : ℝ) * (Real.log b / Real.log 2) + 10 := by
    rw [← hX]; positivity
  have hv := near_nonneg hA n4
  exact ⟨_, truncate_of_nonneg _ hv, hv, near_mono (by norm_num) hA n4⟩

/-- The term count is within a relative `2^-49`, and the truncation, of the real
expression of line 125. -/
theorem steps_bounds (d b : Int) (hd : 0 ≤ d) (hb : 1 ≤ b) :
    ((d : ℝ) * (Real.log b / Real.log 2) / 4 + 10) * 1.0001 * (1 - 1 / 2 ^ 49) - 1
        < (steps d b : ℝ)
      ∧ (steps d b : ℝ)
        ≤ ((d : ℝ) * (Real.log b / Real.log 2) / 4 + 10) * 1.0001 * (1 + 1 / 2 ^ 49) := by
  obtain ⟨v, hv, _, hn⟩ := steps_spec d b hd hb
  have hd' : (0 : ℝ) ≤ d := by exact_mod_cast hd
  have h0 := log_ratio_nonneg b hb
  obtain ⟨h1, h2⟩ := near_bounds (le_refl 8) (by positivity) hn
  rw [hv]
  constructor
  · have := Int.lt_floor_add_one v
    linarith
  · exact le_trans (Int.floor_le v) h2

/-- The precision is within a relative `2^-49`, and the truncation, of the real
expression of line 129. -/
theorem default_prec_bounds (d b : Int) (hd : 0 ≤ d) (hb : 1 ≤ b) :
    ((d : ℝ) * (Real.log b / Real.log 2) + 10) * (1 - 1 / 2 ^ 49) - 1
        < (default_prec d b : ℝ)
      ∧ (default_prec d b : ℝ)
        ≤ ((d : ℝ) * (Real.log b / Real.log 2) + 10) * (1 + 1 / 2 ^ 49) := by
  obtain ⟨v, hv, _, hn⟩ := default_prec_spec d b hd hb
  have hd' : (0 : ℝ) ≤ d := by exact_mod_cast hd
  have h0 := log_ratio_nonneg b hb
  obtain ⟨h1, h2⟩ := near_bounds (le_refl 8) (by positivity) hn
  rw [hv]
  constructor
  · have := Int.lt_floor_add_one v
    linarith
  · exact le_trans (Int.floor_le v) h2

/-- The term count from rational bounds of `log b / log 2`. -/
theorem steps_eq_of_bounds (d b N : Int) (lo hi : ℝ) (hd : 0 ≤ d) (hb : 1 ≤ b)
    (hlo : lo ≤ Real.log b / Real.log 2) (hhi : Real.log b / Real.log 2 ≤ hi)
    (h1 : (N : ℝ) ≤ ((d : ℝ) * lo / 4 + 10) * 1.0001 * (1 - 1 / 2 ^ 49))
    (h2 : ((d : ℝ) * hi / 4 + 10) * 1.0001 * (1 + 1 / 2 ^ 49) < N + 1) : steps d b = N := by
  have hd' : (0 : ℝ) ≤ d := by exact_mod_cast hd
  obtain ⟨b1, b2⟩ := steps_bounds d b hd hb
  have hx1 : ((d : ℝ) * lo / 4 + 10) * 1.0001 * (1 - 1 / 2 ^ 49)
      ≤ ((d : ℝ) * (Real.log b / Real.log 2) / 4 + 10) * 1.0001 * (1 - 1 / 2 ^ 49) := by
    have := mul_le_mul_of_nonneg_left hlo hd'
    apply mul_le_mul_of_nonneg_right _ (by norm_num)
    apply mul_le_mul_of_nonneg_right _ (by norm_num)
    linarith
  have hx2 : ((d : ℝ) * (Real.log b / Real.log 2) / 4 + 10) * 1.0001 * (1 + 1 / 2 ^ 49)
      ≤ ((d : ℝ) * hi / 4 + 10) * 1.0001 * (1 + 1 / 2 ^ 49) := by
    have := mul_le_mul_of_nonneg_left hhi hd'
    apply mul_le_mul_of_nonneg_right _ (by norm_num)
    apply mul_le_mul_of_nonneg_right _ (by norm_num)
    linarith
  have l1 : ((N - 1 : Int) : ℝ) < (steps d b : ℝ) := by
    push_cast
    linarith
  have l2 : (steps d b : ℝ) < ((N + 1 : Int) : ℝ) := by
    push_cast
    linarith
  have l1' : N - 1 < steps d b := by exact_mod_cast l1
  have l2' : steps d b < N + 1 := by exact_mod_cast l2
  omega

/-- The precision from rational bounds of `log b / log 2`. -/
theorem default_prec_eq_of_bounds (d b N : Int) (lo hi : ℝ) (hd : 0 ≤ d) (hb : 1 ≤ b)
    (hlo : lo ≤ Real.log b / Real.log 2) (hhi : Real.log b / Real.log 2 ≤ hi)
    (h1 : (N : ℝ) ≤ ((d : ℝ) * lo + 10) * (1 - 1 / 2 ^ 49))
    (h2 : ((d : ℝ) * hi + 10) * (1 + 1 / 2 ^ 49) < N + 1) : default_prec d b = N := by
  have hd' : (0 : ℝ) ≤ d := by exact_mod_cast hd
  obtain ⟨b1, b2⟩ := default_prec_bounds d b hd hb
  have hx1 : ((d : ℝ) * lo + 10) * (1 - 1 / 2 ^ 49)
      ≤ ((d : ℝ) * (Real.log b / Real.log 2) + 10) * (1 - 1 / 2 ^ 49) := by
    have := mul_le_mul_of_nonneg_left hlo hd'
    apply mul_le_mul_of_nonneg_right _ (by norm_num)
    linarith
  have hx2 : ((d : ℝ) * (Real.log b / Real.log 2) + 10) * (1 + 1 / 2 ^ 49)
      ≤ ((d : ℝ) * hi + 10) * (1 + 1 / 2 ^ 49) := by
    have := mul_le_mul_of_nonneg_left hhi hd'
    apply mul_le_mul_of_nonneg_right _ (by norm_num)
    linarith
  have l1 : ((N - 1 : Int) : ℝ) < (default_prec d b : ℝ) := by
    push_cast
    linarith
  have l2 : (default_prec d b : ℝ) < ((N + 1 : Int) : ℝ) := by
    push_cast
    linarith
  have l1' : N - 1 < default_prec d b := by exact_mod_cast l1
  have l2' : default_prec d b < N + 1 := by exact_mod_cast l2
  omega

/-- The term count exceeds a quarter of the bits of the request by more than 9: the
factor `1.0001` outweighs the rounding of the `double` operations. -/
theorem steps_lower (d b : Int) (hd : 0 ≤ d) (hb : 1 ≤ b) :
    (d : ℝ) * (Real.log b / Real.log 2) / 4 + 9 < (steps d b : ℝ) ∧ 10 ≤ steps d b := by
  have hd' : (0 : ℝ) ≤ d := by exact_mod_cast hd
  have h0 := log_ratio_nonneg b hb
  obtain ⟨b1, _⟩ := steps_bounds d b hd hb
  have hY : 0 ≤ (d : ℝ) * (Real.log b / Real.log 2) / 4 := by positivity
  have hx : (d : ℝ) * (Real.log b / Real.log 2) / 4 + 10
      ≤ ((d : ℝ) * (Real.log b / Real.log 2) / 4 + 10) * 1.0001 * (1 - 1 / 2 ^ 49) := by
    have e : (1 : ℝ) ≤ 1.0001 * (1 - 1 / 2 ^ 49) := by norm_num
    have : 0 ≤ (d : ℝ) * (Real.log b / Real.log 2) / 4 + 10 := by positivity
    calc (d : ℝ) * (Real.log b / Real.log 2) / 4 + 10
        = ((d : ℝ) * (Real.log b / Real.log 2) / 4 + 10) * 1 := (mul_one _).symm
      _ ≤ ((d : ℝ) * (Real.log b / Real.log 2) / 4 + 10) * (1.0001 * (1 - 1 / 2 ^ 49)) :=
          mul_le_mul_of_nonneg_left e this
      _ = _ := by ring
  have h9 : (d : ℝ) * (Real.log b / Real.log 2) / 4 + 9 < (steps d b : ℝ) := by linarith
  refine ⟨h9, ?_⟩
  have : ((9 : Int) : ℝ) < (steps d b : ℝ) := by
    push_cast
    linarith
  have : (9 : Int) < steps d b := by exact_mod_cast this
  omega

/-- The term count of a request in base 10 fits `int32_t`. -/
theorem steps_base10_fits (d : Int) (hd : 0 ≤ d) (hd2 : d ≤ 2147483647) :
    steps d 10 ≤ 2147483647 := by
  have hd' : (0 : ℝ) ≤ d := by exact_mod_cast hd
  have hd2' : (d : ℝ) ≤ 2147483647 := by exact_mod_cast hd2
  obtain ⟨_, b2⟩ := steps_bounds d 10 hd (by norm_num)
  have hhi := log_ratio_lt 10 34 10 (by norm_num) (by norm_num) (by norm_num)
  have hL : Real.log ((10 : Int) : ℝ) / Real.log 2 ≤ 3.4 := by
    have := hhi.le
    norm_num at this ⊢
    linarith
  have h0 := log_ratio_nonneg 10 (by norm_num)
  have hle : ((d : ℝ) * (Real.log ((10 : Int) : ℝ) / Real.log 2) / 4 + 10) * 1.0001
      * (1 + 1 / 2 ^ 49) ≤ 2147483647 := by
    have h3 : (d : ℝ) * (Real.log ((10 : Int) : ℝ) / Real.log 2) ≤ 2147483647 * 3.4 :=
      mul_le_mul hd2' hL h0 (by norm_num)
    have h4 : ((d : ℝ) * (Real.log ((10 : Int) : ℝ) / Real.log 2) / 4 + 10) * 1.0001
        * (1 + 1 / 2 ^ 49) ≤ ((2147483647 * 3.4 : ℝ) / 4 + 10) * 1.0001 * (1 + 1 / 2 ^ 49) := by
      apply mul_le_mul_of_nonneg_right _ (by norm_num)
      apply mul_le_mul_of_nonneg_right _ (by norm_num)
      linarith
    refine le_trans h4 ?_
    norm_num
  have : (steps d 10 : ℝ) ≤ ((2147483647 : Int) : ℝ) := by
    push_cast
    linarith
  exact_mod_cast this

theorem steps_10_10 : steps 10 10 = 18 := by
  have hlo := le_log_ratio 10 33 10 (by norm_num) (by norm_num)
  have hhi := log_ratio_lt 10 34 10 (by norm_num) (by norm_num) (by norm_num)
  apply steps_eq_of_bounds 10 10 18 _ _ (by norm_num) (by norm_num)
    (by exact_mod_cast hlo) (by exact_mod_cast hhi.le) <;> norm_num

theorem default_prec_10_10 : default_prec 10 10 = 43 := by
  have hlo := le_log_ratio 10 332 100 (by norm_num) (by norm_num)
  have hhi := log_ratio_lt 10 333 100 (by norm_num) (by norm_num) (by norm_num)
  apply default_prec_eq_of_bounds 10 10 43 _ _ (by norm_num) (by norm_num)
    (by exact_mod_cast hlo) (by exact_mod_cast hhi.le) <;> norm_num

theorem steps_8_16 : steps 8 16 = 18 := by
  have hlo := le_log_ratio 16 4 1 (by norm_num) (by norm_num)
  have hhi := log_ratio_lt 16 401 100 (by norm_num) (by norm_num) (by norm_num)
  apply steps_eq_of_bounds 8 16 18 _ _ (by norm_num) (by norm_num)
    (by exact_mod_cast hlo) (by exact_mod_cast hhi.le) <;> norm_num

theorem steps_2_5 : steps 2 5 = 11 := by
  have hlo := le_log_ratio 5 2 1 (by norm_num) (by norm_num)
  have hhi := log_ratio_lt 5 3 1 (by norm_num) (by norm_num) (by norm_num)
  apply steps_eq_of_bounds 2 5 11 _ _ (by norm_num) (by norm_num)
    (by exact_mod_cast hlo) (by exact_mod_cast hhi.le) <;> norm_num

/-- At 2147483647 digits in base 16 the term count is above the largest `int32_t`. -/
theorem steps_overflow_16 : (2147483647 : Int) < steps 2147483647 16 := by
  have h := (steps_lower 2147483647 16 (by decide) (by decide)).1
  have hlo := le_log_ratio 16 4 1 (by norm_num) (by norm_num)
  have h2 : (2147483647 : ℝ) < (steps 2147483647 16 : ℝ) := by
    push_cast at h hlo
    norm_num at hlo
    linarith
  exact_mod_cast h2

/-- A run on validated arguments whose term count and buffer size fit `int32_t`: the
precision is set, every index below the term count is visited, and the line printed
is the rendering of the conversion of the sum of the planned terms, less 2; it
starts with the integer digits for the base and the radix marker. -/
theorem main_valid (argv : List String) (digits BASE : Int)
    (hdigits : digits = toInt32 (strtol (argv.getD 1 "")))
    (hBASE : BASE = if 2 < argv.length then toInt32 (strtol (argv.getD 2 "")) else 10)
    (hlen : 2 ≤ argv.length) (hd : 0 < digits) (hb : 2 ≤ BASE) (hb2 : BASE ≤ 62)
    (hfit : steps digits BASE ≤ 2147483647) (hd2 : digits ≤ 2147483645) :
    ∃ frac,
      render digits BASE
          (mpf_get_str BASE.toNat (digits + 1).toNat (seriesSum (steps digits BASE).toNat - 2))
        = some ((if BASE = 2 then ['1', '1'] else if BASE = 3 then ['1', '0'] else ['3'])
            ++ '.' :: frac)
      ∧ main argv = some (Outcome.success (default_prec digits BASE)
        ((List.range (steps digits BASE).toNat).reverse.map (fun k : Nat => (k : Int)))
        (seriesSum (steps digits BASE).toNat - 2)
        ((if BASE = 2 then ['1', '1'] else if BASE = 3 then ['1', '0'] else ['3'])
          ++ '.' :: frac)) := by
  have h10 := (steps_lower digits BASE hd.le (by omega)).2
  have hs : steps digits BASE ≤ 2 ^ 60 := le_trans hfit (by norm_num)
  obtain ⟨frac, hc⟩ := compute_total (steps digits BASE) digits BASE hs hd hb
  have hr : render digits BASE
      (mpf_get_str BASE.toNat (digits + 1).toNat (seriesSum (steps digits BASE).toNat - 2))
        = some ((if BASE = 2 then ['1', '1'] else if BASE = 3 then ['1', '0'] else ['3'])
            ++ '.' :: frac) := by
    have he := compute_eq (steps digits BASE) digits BASE hs
    rw [hc] at he
    cases hrr : render digits BASE
      (mpf_get_str BASE.toNat (digits + 1).toNat (seriesSum (steps digits BASE).toNat - 2)) with
    | none => rw [hrr] at he; simp at he
    | some line =>
      rw [hrr] at he
      simp only [Option.map_some', Option.some.injEq, Prod.mk.injEq, true_and] at he
      rw [he]
  refine ⟨frac, hr, ?_⟩
  unfold main
  rw [if_neg (by omega)]
  simp only [← hdigits]
  rw [if_neg (by omega)]
  simp only [← hBASE]
  rw [if_neg (by omega), if_neg (by unfold INT32_MIN INT32_MAX; omega),
    if_neg (by unfold INT32_MAX; omega), hc]
  rfl

/-- A run on validated arguments is undefined when the term count of line 125 or the
buffer size of line 187 does not fit `int32_t`. -/
theorem main_undefined (argv : List String) (digits BASE : Int)
    (hdigits : digits = toInt32 (strtol (argv.getD 1 "")))
    (hBASE : BASE = if 2 < argv.length then toInt32 (strtol (argv.getD 2 "")) else 10)
    (hlen : 2 ≤ argv.length) (hd : 0 < digits) (hb : 2 ≤ BASE) (hb2 : BASE ≤ 62)
    (h : 2147483647 < steps digits BASE ∨ 2147483645 < digits) : main argv = none := by
  unfold main
  rw [if_neg (by omega)]
  simp only [← hdigits]
  rw [if_neg (by omega)]
  simp only [← hBASE]
  rw [if_neg (by omega)]
  by_cases hs : steps digits BASE < INT32_MIN ∨ INT32_MAX < steps digits BASE
  · rw [if_pos hs]
  · rw [if_neg hs, if_pos]
    unfold INT32_MAX at hs ⊢
    omega

/-- The digit line of a run on validated arguments within the `int32_t` range: the
rendering of the conversion of the sum of the planned number of terms, less 2. -/
theorem digitOutput_valid (argv : List String) (digits BASE : Int)
    (hdigits : digits = toInt32 (strtol (argv.getD 1 "")))
    (hBASE : BASE = if 2 < argv.length then toInt32 (strtol (argv.getD 2 "")) else 10)
    (hlen : 2 ≤ argv.length) (hd : 0 < digits) (hb : 2 ≤ BASE) (hb2 : BASE ≤ 62)
    (hfit : steps digits BASE ≤ 2147483647) (hd2 : digits ≤ 2147483645) :
    digitOutput argv = render digits BASE
      (mpf_get_str BASE.toNat (digits + 1).toNat (seriesSum (steps digits BASE).toNat - 2)) := by
  obtain ⟨frac, hr, hm⟩ := main_valid argv digits BASE hdigits hBASE hlen hd hb hb2 hfit hd2
  rw [digitOutput, hm, hr]
  rfl

theorem out_10_10 : digitOutput ["./a.out", "10", "10"] = some "3.1415926536".toList := by
  rw [digitOutput_valid ["./a.out", "10", "10"] 10 10 (by decide) (by decide) (by decide)
    (by decide) (by decide) (by decide) (by rw [steps_10_10]; decide) (by decide), steps_10_10]
  decide!

theorem out_8_16 : digitOutput ["./a.out", "8", "16"] = some "3.243f6a89".toList := by
  rw [digitOutput_valid ["./a.out", "8", "16"] 8 16 (by decide) (by decide) (by decide)
    (by decide) (by decide) (by decide) (by rw [steps_8_16]; decide) (by decide), steps_8_16]
  decide!

theorem out_2_5 : digitOutput ["./a.out", "2", "5"] = some "3.03".toList := by
  rw [digitOutput_valid ["./a.out", "2", "5"] 2 5 (by decide) (by decide) (by decide)
    (by decide) (by decide) (by decide) (by rw [steps_2_5]; decide) (by decide), steps_2_5]
  decide!

/-- C1 at the request of 2 digits in base 5: the line printed is `3.03`, whose value
3.12 is further from π than half a unit of the last digit, while the numeral `3.04`
is within that distance. -/
theorem output_base5_not_rounded :
    digitOutput ["./a.out", "2", "5"] = some "3.03".toList
      ∧ (1 / 2 : ℝ) * (1 / 5 ^ 2) < |((numeralValue 5 "3.03".toList : ℚ) : ℝ) - Real.pi|
      ∧ |((numeralValue 5 "3.04".toList : ℚ) : ℝ) - Real.pi| ≤ (1 / 2 : ℝ) * (1 / 5 ^ 2) := by
  have e1 : numeralValue 5 "3.03".toList = 78 / 25 := by decide!
  have e2 : numeralValue 5 "3.04".toList = 79 / 25 := by decide!
  have hlo := Real.pi_gt_d2
  have hhi := Real.pi_lt_d2
  refine ⟨out_2_5, ?_, ?_⟩
  · rw [e1, abs_sub_comm, abs_of_pos (by push_cast; linarith)]
    push_cast
    linarith
  · rw [e2, abs_of_pos (by push_cast; linarith)]
    push_cast
    linarith

/-- C5 as the code has it: for base 10 and 10 digits the line printed is
`3.1415926536`, the last digit rounded up; every accumulator value within `10^-13`
of the exact sum of the 18 planned terms gives the same line. -/
theorem output_base10_digits10 :
    steps 10 10 = 18
      ∧ digitOutput ["./a.out", "10", "10"] = some "3.1415926536".toList
      ∧ ∀ n' : ℚ, |n' - seriesSum 18| ≤ 1 / 10 ^ 13 →
          render 10 10 (mpf_get_str 10 11 (mpf_sub_ui n' 2)) = some "3.1415926536".toList :=
  ⟨steps_10_10, out_10_10, near_10_10⟩

/-- C5 as stated fails: the line printed for base 10 and 10 digits is not `3.1415926535`. -/
theorem output_base10_digits10_not_truncated :
    digitOutput ["./a.out", "10", "10"] ≠ some "3.1415926535".toList := by
  rw [out_10_10]
  decide

/-- C6 as the code has it: for base 16 and 8 digits the line printed is `3.243f6a89`,
in the lower-case alphabet of the conversion and with the last digit rounded up;
every accumulator value within `10^-13` of the exact sum of the 18 planned terms
gives the same line. -/
theorem output_base16_digits8 :
    steps 8 16 = 18
      ∧ digitOutput ["./a.out", "8", "16"] = some "3.243f6a89".toList
      ∧ ∀ n' : ℚ, |n' - seriesSum 18| ≤ 1 / 10 ^ 13 →
          render 8 16 (mpf_get_str 16 9 (mpf_sub_ui n' 2)) = some "3.243f6a89".toList :=
  ⟨steps_8_16, out_8_16, near_8_16⟩

/-- C6 as stated fails: the line printed for base 16 and 8 digits is not `3.243F6A88`. -/
theorem output_base16_digits8_not_truncated :
    digitOutput ["./a.out", "8", "16"] ≠ some "3.243F6A88".toList := by
  rw [out_8_16]
  decide

/-- C14 at 2147483647 digits in base 16: the `double` value of line 125, truncated, is
above the largest `int32_t`, so the conversion to `int32_t steps` overflows; the
count is never below 10. -/
theorem steps_exceeds_int32 :
    (2147483647 : Int) < steps 2147483647 16
      ∧ ∀ d b : Int, 0 ≤ d → 1 ≤ b → 10 ≤ steps d b :=
  ⟨steps_overflow_16, fun d b hd hb => (steps_lower d b hd hb).2⟩

/-- C2 at `./a.out 2147483647 16`: the arguments pass the three checks of lines 103 to
121, yet the run is undefined and returns no status, because the term count does not
fit `int32_t`.  Everywhere else the claim holds: the run prints an error and returns
`-1`, with no precision set, no loop pass and no line, exactly on the three
conditions; on other arguments whose term count and buffer size fit `int32_t` it
sets the planned precision, visits the planned indices, hands the sum of the planned
terms less 2 to the conversion, prints the rendered line and returns `0`; and on the
remaining arguments the run is undefined. -/
theorem main_validation :
    (main ["./a.out", "2147483647", "16"] = none
        ∧ ¬ (["./a.out", "2147483647", "16"].length < 2
            ∨ toInt32 (strtol "2147483647") ≤ 0
            ∨ toInt32 (strtol "16") < 2 ∨ 62 < toInt32 (strtol "16")))
      ∧ (∀ argv : List String,
          (argv.length < 2 ∨ toInt32 (strtol (argv.getD 1 "")) ≤ 0
            ∨ (2 < argv.length ∧ (toInt32 (strtol (argv.getD 2 "")) < 2
                ∨ 62 < toInt32 (strtol (argv.getD 2 "")))))
          → ∃ message, main argv = some (Outcome.error message)
              ∧ (Outcome.error message).status = -1
              ∧ (Outcome.error message).line = none)
      ∧ (∀ (argv : List String) (digits BASE : Int),
          digits = toInt32 (strtol (argv.getD 1 ""))
          → BASE = (if 2 < argv.length then toInt32 (strtol (argv.getD 2 "")) else 10)
          → ¬ (argv.length < 2 ∨ digits ≤ 0 ∨ (2 < argv.length ∧ (BASE < 2 ∨ 62 < BASE)))
          → (steps digits BASE ≤ 2147483647 ∧ digits ≤ 2147483645
              → ∃ line,
                  render digits BASE (mpf_get_str BASE.toNat (digits + 1).toNat
                    (mpf_sub_ui (seriesSum (steps digits BASE).toNat) 2)) = some line
                  ∧ main argv = some (Outcome.success (default_prec digits BASE)
                      ((List.range (steps digits BASE).toNat).reverse.map
                        (fun k : Nat => (k : Int)))
                      (mpf_sub_ui (seriesSum (steps digits BASE).toNat) 2) line)
                  ∧ (Outcome.success (default_prec digits BASE)
                      ((List.range (steps digits BASE).toNat).reverse.map
                        (fun k : Nat => (k : Int)))
                      (mpf_sub_ui (seriesSum (steps digits BASE).toNat) 2) line).status = 0)
            ∧ (¬ (steps digits BASE ≤ 2147483647 ∧ digits ≤ 2147483645)
              → main argv = none)) := by
  refine ⟨⟨?_, by decide⟩, ?_, ?_⟩
  · exact main_undefined ["./a.out", "2147483647", "16"] 2147483647 16 (by decide) (by decide)
      (by decide) (by decide) (by decide) (by decide) (Or.inl steps_overflow_16)
  · intro argv h
    by_cases h1 : argv.length < 2
    · refine ⟨" Error: argument is required", ?_, rfl, rfl⟩
      unfold main
      rw [if_pos h1]
    by_cases h2 : toInt32 (strtol (argv.getD 1 "")) ≤ 0
    · refine ⟨" Error: positive digits is required", ?_, rfl, rfl⟩
      unfold main
      rw [if_neg h1]
      simp only
      rw [if_pos h2]
    have h3 : 2 < argv.length ∧ (toInt32 (strtol (argv.getD 2 "")) < 2
        ∨ 62 < toInt32 (strtol (argv.getD 2 ""))) := by
      rcases h with h | h | h
      · exact absurd h h1
      · exact absurd h h2
      · exact h
    refine ⟨" Error: BASE may only vary from 2 to 62", ?_, rfl, rfl⟩
    unfold main
    rw [if_neg h1]
    simp only
    rw [if_neg h2, if_pos h3.1, if_pos h3]
  · intro argv digits BASE hdigits hBASE h
    have hlen : 2 ≤ argv.length := by omega
    have hd : 0 < digits := by omega
    have hB : 2 ≤ BASE ∧ BASE ≤ 62 := by
      by_cases hl : 2 < argv.length
      · constructor <;> omega
      · rw [if_neg hl] at hBASE
        rw [hBASE]
        constructor <;> decide
    constructor
    · rintro ⟨hfit, hd2⟩
      obtain ⟨frac, hr, hm⟩ :=
        main_valid argv digits BASE hdigits hBASE hlen hd hB.1 hB.2 hfit hd2
      have e : mpf_sub_ui (seriesSum (steps digits BASE).toNat) 2
          = seriesSum (steps digits BASE).toNat - 2 := by simp [mpf_sub_ui]
      rw [e]
      exact ⟨_, hr, hm, rfl⟩
    · intro hn
      apply main_undefined argv digits BASE hdigits hBASE hlen hd hB.1 hB.2
      omega

/-- C4: on validated arguments every line printed starts with the numeral of 3 in the
base and the radix marker, `11.` in base 2, `10.` in base 3 and `3.` from base 4
on, and the digits before the marker, read in the base, have the value 3; a line is
printed whenever the term count and the buffer size fit `int32_t`. -/
theorem line_integer_part (argv : List String) (BASE : Int)
    (hBASE : BASE = if 2 < argv.length then toInt32 (strtol (argv.getD 2 "")) else 10)
    (hlen : 2 ≤ argv.length) (hd : 0 < toInt32 (strtol (argv.getD 1 "")))
    (hb : 2 ≤ BASE) (hb2 : BASE ≤ 62) :
    (steps (toInt32 (strtol (argv.getD 1 ""))) BASE ≤ 2147483647
        → toInt32 (strtol (argv.getD 1 "")) ≤ 2147483645
        → ∃ line, digitOutput argv = some line)
      ∧ ∀ line, digitOutput argv = some line →
          (BASE = 2 → ∃ frac, line = '1' :: '1' :: '.' :: frac)
          ∧ (BASE = 3 → ∃ frac, line = '1' :: '0' :: '.' :: frac)
          ∧ (4 ≤ BASE → ∃ frac, line = '3' :: '.' :: frac)
          ∧ digitsValue BASE.toNat (integerPart line) = 3 := by
  by_cases hf : steps (toInt32 (strtol (argv.getD 1 ""))) BASE ≤ 2147483647
      ∧ toInt32 (strtol (argv.getD 1 "")) ≤ 2147483645
  · obtain ⟨frac, _, hm⟩ := main_valid argv _ BASE rfl hBASE hlen hd hb hb2 hf.1 hf.2
    have ho : digitOutput argv
        = some ((if BASE = 2 then ['1', '1'] else if BASE = 3 then ['1', '0'] else ['3'])
            ++ '.' :: frac) := by
      rw [digitOutput, hm]
      rfl
    refine ⟨fun _ _ => ⟨_, ho⟩, ?_⟩
    intro line hl
    rw [ho] at hl
    have hl' := (Option.some.inj hl).symm
    subst hl'
    refine ⟨?_, ?_, ?_, ?_⟩
    · intro h
      exact ⟨frac, by simp [h]⟩
    · intro h
      exact ⟨frac, by simp [h]⟩
    · intro h
      have h2 : BASE ≠ 2 := by omega
      have h3 : BASE ≠ 3 := by omega
      exact ⟨frac, by simp [h2, h3]⟩
    · rw [integerPart_lead]
      split_ifs with h2 h3
      · rw [h2]; decide
      · rw [h3]; decide
      · exact digitsValue_three _
  · have hm := main_undefined argv _ BASE rfl hBASE hlen hd hb hb2 (by omega)
    refine ⟨fun h1 h2 => absurd ⟨h1, h2⟩ hf, ?_⟩
    intro line hl
    rw [digitOutput, hm] at hl
    simp at hl

theorem line_integer_part_witness :
    (steps (toInt32 (strtol (["./a.out", "2", "5"].getD 1 ""))) 5 ≤ 2147483647
        → toInt32 (strtol (["./a.out", "2", "5"].getD 1 "")) ≤ 2147483645
        → ∃ line, digitOutput ["./a.out", "2", "5"] = some line)
      ∧ ∀ line, digitOutput ["./a.out", "2", "5"] = some line →
          ((5 : Int) = 2 → ∃ frac, line = '1' :: '1' :: '.' :: frac)
          ∧ ((5 : Int) = 3 → ∃ frac, line = '1' :: '0' :: '.' :: frac)
          ∧ (4 ≤ (5 : Int) → ∃ frac, line = '3' :: '.' :: frac)
          ∧ digitsValue (5 : Int).toNat (integerPart line) = 3 :=
  line_integer_part ["./a.out", "2", "5"] 5 (by decide) (by decide) (by decide) (by decide)
    (by decide)

/-- C10: a run without a base argument is the run with the base argument `10`: the two
have the same outcome, defined or not.  On a positive digit count of at most
2147483645 it sets the precision and sums the terms planned for base 10 and prints
a line that starts with `3.`; above that the buffer size `digits + 2` does not fit
`int32_t` and both runs are undefined. -/
theorem default_base (prog digitsArg : String) :
    main [prog, digitsArg] = main [prog, digitsArg, "10"]
      ∧ (0 < toInt32 (strtol digitsArg) → toInt32 (strtol digitsArg) ≤ 2147483645 →
          ∃ frac, main [prog, digitsArg] = some (Outcome.success
            (default_prec (toInt32 (strtol digitsArg)) 10)
            ((List.range (steps (toInt32 (strtol digitsArg)) 10).toNat).reverse.map
              (fun k : Nat => (k : Int)))
            (seriesSum (steps (toInt32 (strtol digitsArg)) 10).toNat - 2)
            ('3' :: '.' :: frac)))
      ∧ (2147483645 < toInt32 (strtol digitsArg) → main [prog, digitsArg] = none) := by
  refine ⟨?_, ?_, ?_⟩
  · unfold main
    simp [strtol_ten]
  · intro h h2
    obtain ⟨frac, _, hm⟩ := main_valid [prog, digitsArg] (toInt32 (strtol digitsArg)) 10 rfl rfl
      (by simp) h (by decide) (by decide)
      (steps_base10_fits _ h.le (by omega)) h2
    exact ⟨frac, by rw [hm]; rfl⟩
  · intro h
    exact main_undefined [prog, digitsArg] (toInt32 (strtol digitsArg)) 10 rfl rfl
      (by simp) (by omega) (by decide) (by decide) (Or.inr h)

/-! ## Exact `double` evaluations -/

/-- Twenty decimals of `log 2`, from seventy terms of the series of `log (1 - x)` at
`x = 1/2`. -/
theorem log_two_bounds :
    (0.69314718055994530941 : ℝ) < Real.log 2 ∧ Real.log 2 < 0.69314718055994530942 := by
  have t : |(2⁻¹ : ℝ)| = 2⁻¹ := by rw [abs_of_pos]; norm_num
  have z := Real.abs_log_sub_add_sum_range_le (show |(2⁻¹ : ℝ)| < 1 by rw [t]; norm_num) 70
  rw [t] at z
  have e : (1 : ℝ) - 2⁻¹ = 2⁻¹ := by norm_num
  have hs : (∑ i ∈ Finset.range 70, (2⁻¹ : ℝ) ^ (i + 1) / ((i : ℝ) + 1))
      = 81026204946914272618346609082102250801114907729
        / 116896104058966015646750947554978314987992252416 := by
    simp_rw [Finset.sum_range_succ]
    norm_num
  rw [e, Real.log_inv, hs] at z
  obtain ⟨z1, z2⟩ := abs_le.mp z
  norm_num at z1 z2
  constructor
  · norm_num
    linarith
  · norm_num
    linarith

/-- A real exactly half way between two `double`s of its binade rounds to the even one. -/
theorem rnd_eq_of_tie (x : ℝ) (j k : ℤ) (h1 : (2 : ℝ) ^ j ≤ x) (h2 : x < (2 : ℝ) ^ (j + 1))
    (h : x = ((k : ℝ) + 1 / 2) * 2 ^ (j - 52)) (hk : k % 2 = 0) :
    rnd x = (k : ℝ) * 2 ^ (j - 52) := by
  have he := int_log_two_eq x j h1 h2
  have hp : (0 : ℝ) < 2 ^ (j - 52) := by positivity
  have hm : x / 2 ^ (j - 52) = (k : ℝ) + 1 / 2 := by
    rw [h]
    field_simp
    ring
  have hf : ⌊x / (2 : ℝ) ^ (j - 52)⌋ = k := by
    rw [hm, Int.floor_eq_iff]
    constructor <;> linarith
  unfold rnd
  rw [he, hf, hm]
  rw [if_neg (by norm_num), if_neg (by norm_num), if_pos hk]

theorem logd_two : logd 2 = 6243314768165359 / 2 ^ 53 := by
  obtain ⟨b1, b2⟩ := log_two_bounds
  unfold logd
  rw [rnd_eq_of_near (Real.log 2) (-1) 6243314768165359 (by norm_num; linarith)
    (by norm_num; linarith) (by rw [abs_lt]; norm_num; constructor <;> linarith)]
  norm_num

theorem log_eight : Real.log 8 = 3 * Real.log 2 := by
  have : (8 : ℝ) = 2 ^ 3 := by norm_num
  rw [this, Real.log_pow]
  norm_num

theorem logd_eight : logd 8 = 4682486076124019 / 2 ^ 51 := by
  obtain ⟨b1, b2⟩ := log_two_bounds
  unfold logd
  rw [log_eight, rnd_eq_of_near (3 * Real.log 2) 1 4682486076124019 (by norm_num; linarith)
    (by norm_num; linarith) (by rw [abs_lt]; norm_num; constructor <;> linarith)]
  norm_num

theorem rnd_factor : rnd 1.0001 = 4504049987333233 / 2 ^ 52 := by
  rw [rnd_eq_of_near 1.0001 0 4504049987333233 (by norm_num) (by norm_num)
    (by rw [abs_lt]; norm_num)]
  norm_num

/-- Line 125 at 839960 digits in base 2: the `double` value is one spacing below
210021, so 210020 terms are summed. -/
theorem steps_839960_2 : steps 839960 2 = 210020 := by
  have s1 : rnd (839960 * (6243314768165359 / 2 ^ 53)) = 5001196549099135 / 2 ^ 33 := by
    rw [rnd_eq_of_near _ 19 5001196549099135 (by norm_num) (by norm_num)
      (by rw [abs_lt]; norm_num)]
    norm_num
  have s2 : rnd (4 * (6243314768165359 / 2 ^ 53)) = 6243314768165359 / 2 ^ 51 := by
    rw [rnd_eq_of_near _ 1 6243314768165359 (by norm_num) (by norm_num)
      (by rw [abs_lt]; norm_num)]
    norm_num
  have s3 : rnd (5001196549099135 / 2 ^ 33 / (6243314768165359 / 2 ^ 51))
      = 7215201459896319 / 2 ^ 35 := by
    rw [rnd_eq_of_near _ 17 7215201459896319 (by norm_num) (by norm_num)
      (by rw [abs_lt]; norm_num)]
    norm_num
  have s4 : rnd (7215201459896319 / 2 ^ 35 + 10) = 7215545057279999 / 2 ^ 35 := by
    rw [rnd_eq_of_near _ 17 7215545057279999 (by norm_num) (by norm_num)
      (by rw [abs_lt]; norm_num)]
    norm_num
  have s5 : rnd (7215545057279999 / 2 ^ 35 * (4504049987333233 / 2 ^ 52))
      = 7216266611785727 / 2 ^ 35 := by
    rw [rnd_eq_of_near _ 17 7216266611785727 (by norm_num) (by norm_num)
      (by rw [abs_lt]; norm_num)]
    norm_num
  have c1 : ((839960 : Int) : ℝ) = 839960 := by norm_num
  have c2 : ((2 : Int) : ℝ) = 2 := by norm_num
  unfold steps
  rw [c1, c2, logd_two, s1, s2, s3, s4, rnd_factor, s5, truncate_of_nonneg _ (by norm_num),
    Int.floor_eq_iff]
  norm_num

/-- Line 129 at 6 digits in base 8: the `double` value is one spacing below 28, so the
precision passed is 27. -/
theorem default_prec_6_8 : default_prec 6 8 = 27 := by
  have s1 : rnd (6 * (4682486076124019 / 2 ^ 51)) = 7023729114186028 / 2 ^ 49 := by
    rw [rnd_eq_of_tie _ 3 7023729114186028 (by norm_num) (by norm_num) (by norm_num)
      (by decide)]
    norm_num
  have s2 : rnd (7023729114186028 / 2 ^ 49 / (6243314768165359 / 2 ^ 53))
      = 5066549580791807 / 2 ^ 48 := by
    rw [rnd_eq_of_near _ 4 5066549580791807 (by norm_num) (by norm_num)
      (by rw [abs_lt]; norm_num)]
    norm_num
  have s3 : rnd (5066549580791807 / 2 ^ 48 + 10) = 7881299347898367 / 2 ^ 48 := by
    rw [rnd_eq_of_near _ 4 7881299347898367 (by norm_num) (by norm_num)
      (by rw [abs_lt]; norm_num)]
    norm_num
  have c1 : ((6 : Int) : ℝ) = 6 := by norm_num
  have c2 : ((8 : Int) : ℝ) = 8 := by norm_num
  unfold default_prec
  rw [c1, c2, logd_eight, logd_two, s1, s2, s3, truncate_of_nonneg _ (by norm_num),
    Int.floor_eq_iff]
  norm_num

/-- The planned number of terms reaches past the requested digits: `b^(d+1) ≤ 16^steps`. -/
theorem pow_le_sixteen_pow_steps (d b : Nat) (hb : 2 ≤ b) (hb2 : b ≤ 62) :
    b ^ (d + 1) ≤ 16 ^ (steps (d : Int) (b : Int)).toNat := by
  obtain ⟨h1, h10⟩ := steps_lower (d : Int) (b : Int) (by positivity) (by omega)
  have h6 := log_ratio_le_six (b : Int) (by omega) (by omega)
  have h0 := log_ratio_nonneg (b : Int) (by omega)
  have h2 : (0 : ℝ) < Real.log 2 := Real.log_pos (by norm_num)
  have hbpos : (0 : ℝ) < ((b : Int) : ℝ) := by exact_mod_cast (by omega : 0 < b)
  have hN : (((steps (d : Int) (b : Int)).toNat : Nat) : ℝ) = (steps (d : Int) (b : Int) : ℝ) := by
    have : (((steps (d : Int) (b : Int)).toNat : Nat) : Int) = steps (d : Int) (b : Int) :=
      Int.toNat_of_nonneg (by omega)
    exact_mod_cast this
  have hlogb : Real.log ((b : Int) : ℝ) = (Real.log ((b : Int) : ℝ) / Real.log 2) * Real.log 2 := by
    field_simp
  have h16 : Real.log (16 : ℝ) = 4 * Real.log 2 := by
    have : (16 : ℝ) = 2 ^ 4 := by norm_num
    rw [this, Real.log_pow]
    norm_num
  have key : Real.log (((b : Int) : ℝ) ^ (d + 1))
      ≤ Real.log ((16 : ℝ) ^ (steps (d : Int) (b : Int)).toNat) := by
    rw [Real.log_pow, Real.log_pow, h16, hN]
    push_cast at h1 ⊢
    set L := Real.log (b : ℝ) / Real.log 2 with hL
    have e : Real.log (b : ℝ) = L * Real.log 2 := by
      rw [hL]; field_simp
    rw [e]
    have hL6 : L ≤ 6 := by simpa using h6
    have hL0 : 0 ≤ L := by simpa using h0
    have hd0 : (0 : ℝ) ≤ d := by positivity
    have : ((d : ℝ) + 1) * L ≤ 4 * (steps (d : Int) (b : Int) : ℝ) := by nlinarith
    nlinarith
  have hreal : (((b : Int) : ℝ) ^ (d + 1)) ≤ (16 : ℝ) ^ (steps (d : Int) (b : Int)).toNat :=
    (Real.log_le_log_iff (by positivity) (by positivity)).mp key
  have : ((b ^ (d + 1) : Nat) : ℝ) ≤ ((16 ^ (steps (d : Int) (b : Int)).toNat : Nat) : ℝ) := by
    push_cast
    exact_mod_cast hreal
  exact_mod_cast this

theorem floor_close (X : ℝ) (z : Int) (h1 : X - 3 / 2 < (z : ℝ)) (h2 : (z : ℝ) < X + 1 / 2) :
    |z - ⌊X⌋| ≤ 1 := by
  have f1 := Int.floor_le X
  have f2 := Int.lt_floor_add_one X
  have a1 : ((⌊X⌋ - 2 : Int) : ℝ) < (z : ℝ) := by
    push_cast
    linarith
  have a2 : (z : ℝ) < ((⌊X⌋ + 2 : Int) : ℝ) := by
    push_cast
    linarith
  have a1' : ⌊X⌋ - 2 < z := by exact_mod_cast a1
  have a2' : z < ⌊X⌋ + 2 := by exact_mod_cast a2
  rw [abs_le]
  constructor <;> omega

theorem logb_two_eq (b : Int) : Real.logb 2 (b : ℝ) = Real.log (b : ℝ) / Real.log 2 := rfl

/-- Within the `int32_t` range of the digit count the plan is within one of the floor
of the real expressions. -/
theorem plan_close (digits BASE : Int) (hd : 0 < digits) (hd2 : digits ≤ 2147483647)
    (hb : 2 ≤ BASE) (hb2 : BASE ≤ 62) :
    |default_prec digits BASE - ⌊(digits : ℝ) * Real.logb 2 BASE + 10⌋| ≤ 1
      ∧ |steps digits BASE - ⌊((digits : ℝ) * Real.logb 2 BASE / 4 + 10) * 1.0001⌋| ≤ 1 := by
  have hd' : (0 : ℝ) ≤ digits := by exact_mod_cast hd.le
  have hd2' : (digits : ℝ) ≤ 2147483647 := by exact_mod_cast hd2
  have h0 := log_ratio_nonneg BASE (by omega)
  have h6 := log_ratio_le_six BASE (by omega) (by omega)
  obtain ⟨p1, p2⟩ := default_prec_bounds digits BASE hd.le (by omega)
  obtain ⟨s1, s2⟩ := steps_bounds digits BASE hd.le (by omega)
  rw [logb_two_eq]
  set L := Real.log (BASE : ℝ) / Real.log 2 with hL
  have hdL : (digits : ℝ) * L ≤ 2147483647 * 6 := mul_le_mul hd2' h6 h0 (by norm_num)
  have hdL0 : 0 ≤ (digits : ℝ) * L := mul_nonneg hd' h0
  constructor
  · apply floor_close
    · have : ((digits : ℝ) * L + 10) * (1 / 2 ^ 49) ≤ 1 / 2 := by
        have : ((digits : ℝ) * L + 10) * (1 / 2 ^ 49) ≤ (2147483647 * 6 + 10) * (1 / 2 ^ 49) :=
          mul_le_mul_of_nonneg_right (by linarith) (by norm_num)
        refine le_trans this ?_
        norm_num
      linarith
    · have : ((digits : ℝ) * L + 10) * (1 / 2 ^ 49) < 1 / 2 := by
        have : ((digits : ℝ) * L + 10) * (1 / 2 ^ 49) ≤ (2147483647 * 6 + 10) * (1 / 2 ^ 49) :=
          mul_le_mul_of_nonneg_right (by linarith) (by norm_num)
        refine lt_of_le_of_lt this ?_
        norm_num
      linarith
  · have hX : ((digits : ℝ) * L / 4 + 10) * 1.0001 * (1 / 2 ^ 49) < 1 / 2 := by
      have : ((digits : ℝ) * L / 4 + 10) * 1.0001 * (1 / 2 ^ 49)
          ≤ ((2147483647 * 6 : ℝ) / 4 + 10) * 1.0001 * (1 / 2 ^ 49) := by
        apply mul_le_mul_of_nonneg_right _ (by norm_num)
        apply mul_le_mul_of_nonneg_right _ (by norm_num)
        linarith
      refine lt_of_le_of_lt this ?_
      norm_num
    apply floor_close
    · linarith
    · linarith

/-- C8 as stated fails at 10 digits in base 10: the precision set is 43 and the term
count is 18, each one less than the rounded-up value of the specification. -/
theorem plan_not_ceiling :
    default_prec 10 10 ≠ ⌈(10 : ℝ) * Real.logb 2 10 + 10⌉
      ∧ steps 10 10 ≠ ⌈((10 : ℝ) * Real.logb 2 10 / 4 + 10) * 1.0001⌉ := by
  have hlo := le_log_ratio 10 332 100 (by norm_num) (by norm_num)
  have hhi := log_ratio_lt 10 333 100 (by norm_num) (by norm_num) (by norm_num)
  have e : Real.logb 2 10 = Real.log ((10 : Nat) : ℝ) / Real.log 2 := by
    simp [Real.logb]
  rw [e, default_prec_10_10, steps_10_10]
  have c1 : ⌈(10 : ℝ) * (Real.log ((10 : Nat) : ℝ) / Real.log 2) + 10⌉ = 44 := by
    rw [Int.ceil_eq_iff]
    norm_num at hlo hhi ⊢
    constructor <;> linarith
  have c2 : ⌈((10 : ℝ) * (Real.log ((10 : Nat) : ℝ) / Real.log 2) / 4 + 10) * 1.0001⌉ = 19 := by
    rw [Int.ceil_eq_iff]
    norm_num at hlo hhi ⊢
    constructor <;> linarith
  rw [c1, c2]
  constructor <;> decide

/-- C8 as the code has it: the precision passed and the term count are the `double`
values of lines 129 and 125 truncated toward zero.  For a digit count of the
`int32_t` range and a base from 2 to 62 each `double` value is within a relative
`2^-49` of the real expression, so each integer is the floor of the real expression
or next to it.  It is not always the floor: at 6 digits in base 8 the precision is
27 where the real expression is 28, and at 839960 digits in base 2 the term count is
210020 where the real expression is 210021. -/
theorem plan_truncated :
    (∀ digits BASE : Int, 0 < digits → digits ≤ 2147483647 → 2 ≤ BASE → BASE ≤ 62 →
        (((digits : ℝ) * Real.logb 2 BASE + 10) * (1 - 1 / 2 ^ 49) - 1
              < (default_prec digits BASE : ℝ)
            ∧ (default_prec digits BASE : ℝ)
              ≤ ((digits : ℝ) * Real.logb 2 BASE + 10) * (1 + 1 / 2 ^ 49))
          ∧ |default_prec digits BASE - ⌊(digits : ℝ) * Real.logb 2 BASE + 10⌋| ≤ 1
          ∧ ((((digits : ℝ) * Real.logb 2 BASE / 4 + 10) * 1.0001) * (1 - 1 / 2 ^ 49) - 1
              < (steps digits BASE : ℝ)
            ∧ (steps digits BASE : ℝ)
              ≤ (((digits : ℝ) * Real.logb 2 BASE / 4 + 10) * 1.0001) * (1 + 1 / 2 ^ 49))
          ∧ |steps digits BASE - ⌊((digits : ℝ) * Real.logb 2 BASE / 4 + 10) * 1.0001⌋| ≤ 1)
      ∧ (default_prec 10 10 = 43 ∧ steps 10 10 = 18)
      ∧ (default_prec 6 8 = 27 ∧ ⌊(6 : ℝ) * Real.logb 2 8 + 10⌋ = 28)
      ∧ (steps 839960 2 = 210020
          ∧ ⌊((839960 : ℝ) * Real.logb 2 2 / 4 + 10) * 1.0001⌋ = 210021) := by
  refine ⟨?_, ⟨default_prec_10_10, steps_10_10⟩, ⟨default_prec_6_8, ?_⟩, ⟨steps_839960_2, ?_⟩⟩
  · intro digits BASE hd hd2 hb hb2
    obtain ⟨c1, c2⟩ := plan_close digits BASE hd hd2 hb hb2
    exact ⟨default_prec_bounds digits BASE hd.le (by omega), c1,
      steps_bounds digits BASE hd.le (by omega), c2⟩
  · have e : Real.logb 2 8 = 3 := by
      have : Real.logb 2 8 = Real.log 8 / Real.log 2 := rfl
      rw [this, log_eight]
      have h2 : (0 : ℝ) < Real.log 2 := Real.log_pos (by norm_num)
      field_simp
    rw [e, Int.floor_eq_iff]
    norm_num
  · have e : Real.logb 2 2 = 1 := Real.logb_self_eq_one (by norm_num)
    rw [e, Int.floor_eq_iff]
    norm_num

/-- C13 as stated fails at 839960 digits in base 2: the program sums 210020 terms,
one less than the truncation of the real expression, which is 210021. -/
theorem steps_not_real_truncation :
    steps 839960 2 = 210020
      ∧ truncate ((((839960 : Int) : ℝ) * Real.logb 2 ((2 : Int) : ℝ) / 4 + 10) * 1.0001)
          = 210021 := by
  refine ⟨steps_839960_2, ?_⟩
  have e : Real.logb 2 ((2 : Int) : ℝ) = 1 := by
    have : ((2 : Int) : ℝ) = 2 := by norm_num
    rw [this]
    exact Real.logb_self_eq_one (by norm_num)
  rw [e, truncate_of_nonneg _ (by norm_num), Int.floor_eq_iff]
  norm_num

/-- C13 as the code has it: with `N` the term count of line 125, the `double` value
truncated, which is within one of the truncation of the real expression, the terms
left out are below one unit of the last digit: for every `M ≥ N` the exact sums
satisfy `0 ≤ S(M) - S(N) < BASE^(-digits)`, and so does the whole tail `π - S(N)`;
when the count fits `int32_t` the loop sums exactly these `N` terms. -/
theorem omitted_terms_small (digits BASE : Int) (hd : 0 < digits) (hd2 : digits ≤ 2147483647)
    (hb : 2 ≤ BASE) (hb2 : BASE ≤ 62) (M : Nat) (hM : (steps digits BASE).toNat ≤ M) :
    |steps digits BASE - truncate (((digits : ℝ) * Real.logb 2 BASE / 4 + 10) * 1.0001)| ≤ 1
      ∧ (steps digits BASE ≤ 2147483647 →
          loop (steps digits BASE - 1) 0 []
            = some (seriesSum (steps digits BASE).toNat,
                (List.range (steps digits BASE).toNat).reverse.map (fun k : Nat => (k : Int))))
      ∧ 0 ≤ seriesSum M - seriesSum (steps digits BASE).toNat
      ∧ seriesSum M - seriesSum (steps digits BASE).toNat < (BASE : ℚ) ^ (-digits)
      ∧ 0 < Real.pi - ((seriesSum (steps digits BASE).toNat : ℚ) : ℝ)
      ∧ Real.pi - ((seriesSum (steps digits BASE).toNat : ℚ) : ℝ) < (BASE : ℝ) ^ (-digits) := by
  have h10 := (steps_lower digits BASE hd.le (by omega)).2
  have hN : 1 ≤ (steps digits BASE).toNat := by omega
  have hpw := pow_le_sixteen_pow_steps digits.toNat BASE.toNat (by omega) (by omega)
  rw [Int.toNat_of_nonneg hd.le, Int.toNat_of_nonneg (by omega : 0 ≤ BASE)] at hpw
  have hpw' : (BASE.toNat : ℚ) ^ (digits.toNat + 1) ≤ 16 ^ (steps digits BASE).toNat := by
    exact_mod_cast hpw
  have hB : ((BASE.toNat : Nat) : ℚ) = (BASE : ℚ) := by
    have : ((BASE.toNat : Nat) : Int) = BASE := Int.toNat_of_nonneg (by omega)
    exact_mod_cast this
  have hBpos : (2 : ℚ) ≤ (BASE : ℚ) := by exact_mod_cast hb
  have hz : (BASE : ℚ) ^ (-digits) = 1 / (BASE : ℚ) ^ digits.toNat := by
    conv_lhs => rw [← Int.toNat_of_nonneg hd.le]
    rw [zpow_neg, zpow_natCast, one_div]
  have hpd : (0 : ℚ) < (BASE : ℚ) ^ digits.toNat := by positivity
  rw [hB] at hpw'
  have h1 : (1 : ℚ) / 2 / 16 ^ (steps digits BASE).toNat
      ≤ 1 / 2 / (BASE : ℚ) ^ (digits.toNat + 1) :=
    div_le_div_of_nonneg_left (by norm_num) (by positivity) hpw'
  have h2 : (1 : ℚ) / 2 / (BASE : ℚ) ^ (digits.toNat + 1) < 1 / (BASE : ℚ) ^ digits.toNat := by
    rw [pow_succ, div_lt_div_iff₀ (by positivity) hpd]
    nlinarith
  have h3 : (1 : ℚ) / 2 / 16 ^ (steps digits BASE).toNat < (BASE : ℚ) ^ (-digits) := by
    rw [hz]
    linarith
  refine ⟨?_, ?_, ?_, ?_, ?_, ?_⟩
  · have hnn : 0 ≤ ((digits : ℝ) * Real.logb 2 BASE / 4 + 10) * 1.0001 := by
      have hd' : (0 : ℝ) ≤ digits := by exact_mod_cast hd.le
      have h0 := log_ratio_nonneg BASE (by omega)
      rw [logb_two_eq]
      positivity
    rw [truncate_of_nonneg _ hnn]
    exact (plan_close digits BASE hd hd2 hb hb2).2
  · intro hfit
    exact loop_steps _ (le_trans hfit (by norm_num))
  · have := seriesSum_mono hM
    linarith
  · have ht := seriesSum_tail hN hM
    have hpM : (0 : ℚ) < 1 / 2 / 16 ^ M := by positivity
    linarith
  · have := seriesSum_lt_pi (steps digits BASE).toNat
    linarith
  · have ht := pi_sub_seriesSum_le (steps digits BASE).toNat hN
    have h3' : ((1 / 2 / 16 ^ (steps digits BASE).toNat : ℚ) : ℝ)
        < (((BASE : ℚ) ^ (-digits) : ℚ) : ℝ) := by exact_mod_cast h3
    push_cast at h3'
    linarith

theorem omitted_terms_small_witness :
    |steps 10 10 - truncate ((((10 : Int) : ℝ) * Real.logb 2 ((10 : Int) : ℝ) / 4 + 10) * 1.0001)|
        ≤ 1
      ∧ (steps 10 10 ≤ 2147483647 →
          loop (steps 10 10 - 1) 0 []
            = some (seriesSum (steps 10 10).toNat,
                (List.range (steps 10 10).toNat).reverse.map (fun k : Nat => (k : Int))))
      ∧ 0 ≤ seriesSum 20 - seriesSum (steps 10 10).toNat
      ∧ seriesSum 20 - seriesSum (steps 10 10).toNat < ((10 : Int) : ℚ) ^ (-(10 : Int))
      ∧ 0 < Real.pi - ((seriesSum (steps 10 10).toNat : ℚ) : ℝ)
      ∧ Real.pi - ((seriesSum (steps 10 10).toNat : ℚ) : ℝ) < ((10 : Int) : ℝ) ^ (-(10 : Int)) :=
  omitted_terms_small 10 10 (by decide) (by decide) (by decide) (by decide) 20
    (by rw [steps_10_10]; decide)

/-! ## Base 10, one to ten digits -/

end PiGMP
